import Mathlib

/-!
# A shallow embedding of `Runtime.cpp` (symcc run-time support library)

The run-time library keeps a registry of shadow-memory regions, a pair of
argument/return slots and an incremental Z3 solver.  Every function of
`Runtime.cpp` is translated below into a function on an explicit `Runtime`
state.  A failed `assert` is an `Except.error`.

Conventions.

* `uintptr_t`, `size_t` and `uint64_t` are 64 bits wide; arithmetic on them is
  written with an explicit `% 2 ^ 64`.  Arguments of these types are natural
  numbers which the caller takes below `2 ^ 64`.
* A `uint8_t` parameter receives its argument modulo `2 ^ 8`.
* `std::set<MemoryRegion, std::less<>>` is the list of its elements in
  iteration order (ascending `start`); an iterator is an index into that list,
  `end()` being the length.
* A `Z3_ast *` array is the function from index to handle.
* Z3 itself is outside the repository: expressions are terms, their meaning is
  the SMT-LIB bit-vector semantics (`Z3_eval`), and `Z3_simplify` and
  `Z3_solver_check` are the two fields of `Z3_context`.
-/

namespace SymCC

/-! ## Z3 expressions -/

/-- Sorts built by `Z3_mk_bv_sort` (and the Boolean sort of conditions). -/
inductive Z3_sort where
  | bool
  | bv (sz : Nat)
  deriving DecidableEq, Repr

/-- The binary operators of the Z3 API that `Runtime.cpp` builds. -/
inductive Z3_decl_kind where
  | Z3_OP_BADD
  | Z3_OP_BMUL
  | Z3_OP_BSREM
  | Z3_OP_BSHL
  | Z3_OP_SLT
  | Z3_OP_SLEQ
  | Z3_OP_SGT
  | Z3_OP_SGEQ
  | Z3_OP_ULT
  | Z3_OP_ULEQ
  | Z3_OP_UGT
  | Z3_OP_UGEQ
  | Z3_OP_EQ
  | Z3_OP_CONCAT
  deriving DecidableEq, Repr

/-- Expression handles.  `null` is the handle an API call returns after a Z3
error (an invalid sort, for instance). -/
inductive Z3_ast where
  | null
  | numeral (n : Nat) (sz : Nat)
  | const (name : String) (s : Z3_sort)
  | mk_true
  | mk_false
  | mk_not (a : Z3_ast)
  | app2 (k : Z3_decl_kind) (a b : Z3_ast)
  | sign_ext (i : Nat) (a : Z3_ast)
  | zero_ext (i : Nat) (a : Z3_ast)
  | extract (high low : Nat) (a : Z3_ast)
  deriving DecidableEq, Repr

/-- Values of expressions: a truth value, or a bit-vector of `sz` bits read as
the unsigned number `n`. -/
inductive Z3_value where
  | bool (b : Bool)
  | bv (sz : Nat) (n : Nat)
  deriving DecidableEq, Repr

/-- Result of `Z3_solver_check`. -/
inductive Z3_lbool where
  | Z3_L_FALSE
  | Z3_L_UNDEF
  | Z3_L_TRUE
  deriving DecidableEq, Repr

/-- An assignment gives every symbolic constant (a name at a sort) a number. -/
abbrev Z3_assignment := String → Z3_sort → Nat

/-- Signed reading of the `sz`-bit pattern `n`. -/
def Z3_signed (sz n : Nat) : Int :=
  if n < 2 ^ (sz - 1) then (n : Int) else (n : Int) - ((2 ^ sz : Nat) : Int)

/-- The `sz`-bit pattern of the integer `i`. -/
def Z3_unsigned (sz : Nat) (i : Int) : Nat :=
  (i % ((2 ^ sz : Nat) : Int)).toNat

/-- SMT-LIB meaning of the binary operators on values; `none` is a sort error. -/
def Z3_eval_app2 : Z3_decl_kind → Z3_value → Z3_value → Option Z3_value
  | .Z3_OP_BADD, .bv sa a, .bv sb b =>
      if sa = sb then some (.bv sa ((a + b) % 2 ^ sa)) else none
  | .Z3_OP_BMUL, .bv sa a, .bv sb b =>
      if sa = sb then some (.bv sa ((a * b) % 2 ^ sa)) else none
  | .Z3_OP_BSREM, .bv sa a, .bv sb b =>
      if sa = sb then
        some (.bv sa (if b = 0 then a
          else Z3_unsigned sa (Int.tmod (Z3_signed sa a) (Z3_signed sa b))))
      else none
  | .Z3_OP_BSHL, .bv sa a, .bv sb b =>
      if sa = sb then some (.bv sa ((a * 2 ^ b) % 2 ^ sa)) else none
  | .Z3_OP_SLT, .bv sa a, .bv sb b =>
      if sa = sb then some (.bool (decide (Z3_signed sa a < Z3_signed sa b))) else none
  | .Z3_OP_SLEQ, .bv sa a, .bv sb b =>
      if sa = sb then some (.bool (decide (Z3_signed sa a ≤ Z3_signed sa b))) else none
  | .Z3_OP_SGT, .bv sa a, .bv sb b =>
      if sa = sb then some (.bool (decide (Z3_signed sa b < Z3_signed sa a))) else none
  | .Z3_OP_SGEQ, .bv sa a, .bv sb b =>
      if sa = sb then some (.bool (decide (Z3_signed sa b ≤ Z3_signed sa a))) else none
  | .Z3_OP_ULT, .bv sa a, .bv sb b =>
      if sa = sb then some (.bool (decide (a < b))) else none
  | .Z3_OP_ULEQ, .bv sa a, .bv sb b =>
      if sa = sb then some (.bool (decide (a ≤ b))) else none
  | .Z3_OP_UGT, .bv sa a, .bv sb b =>
      if sa = sb then some (.bool (decide (b < a))) else none
  | .Z3_OP_UGEQ, .bv sa a, .bv sb b =>
      if sa = sb then some (.bool (decide (b ≤ a))) else none
  | .Z3_OP_EQ, .bool a, .bool b => some (.bool (decide (a = b)))
  | .Z3_OP_EQ, .bv sa a, .bv sb b =>
      if sa = sb then some (.bool (decide (a = b))) else none
  | .Z3_OP_CONCAT, .bv sa a, .bv sb b => some (.bv (sa + sb) (a * 2 ^ sb + b))
  | _, _, _ => none

/-- Value of an expression under an assignment; `none` when the expression is
not well sorted.  Bit-vector values are always below `2 ^ sz`. -/
def Z3_eval (σ : Z3_assignment) : Z3_ast → Option Z3_value
  | .null => none
  | .numeral n sz => if sz = 0 then none else some (.bv sz (n % 2 ^ sz))
  | .const name .bool => some (.bool (decide (σ name .bool % 2 = 1)))
  | .const name (.bv sz) =>
      if sz = 0 then none else some (.bv sz (σ name (.bv sz) % 2 ^ sz))
  | .mk_true => some (.bool true)
  | .mk_false => some (.bool false)
  | .mk_not a =>
      match Z3_eval σ a with
      | some (.bool b) => some (.bool (!b))
      | _ => none
  | .app2 k a b =>
      match Z3_eval σ a, Z3_eval σ b with
      | some va, some vb => Z3_eval_app2 k va vb
      | _, _ => none
  | .sign_ext i a =>
      match Z3_eval σ a with
      | some (.bv sz n) =>
          some (.bv (sz + i) (if n < 2 ^ (sz - 1) then n else n + (2 ^ i - 1) * 2 ^ sz))
      | _ => none
  | .zero_ext i a =>
      match Z3_eval σ a with
      | some (.bv sz n) => some (.bv (sz + i) n)
      | _ => none
  | .extract high low a =>
      match Z3_eval σ a with
      | some (.bv sz n) =>
          if low ≤ high ∧ high < sz then
            some (.bv (high - low + 1) ((n / 2 ^ low) % 2 ^ (high - low + 1)))
          else none
      | _ => none

/-- The context stands for the Z3 library: its simplifier and its
satisfiability check are not part of the repository. -/
structure Z3_context where
  simplify : Z3_ast → Z3_ast
  check : List Z3_ast → Z3_lbool

/-- An incremental solver: the asserted formulas, oldest first, and for every
open scope the number of assertions there were when it was pushed (innermost
scope first). -/
structure Z3_solver where
  assertions : List Z3_ast
  scopes : List Nat

def Z3_mk_solver : Z3_solver := ⟨[], []⟩

def Z3_solver_push (s : Z3_solver) : Z3_solver :=
  { s with scopes := s.assertions.length :: s.scopes }

/-- One scope is popped (`Z3_solver_pop(c, s, 1)`); without an open scope the
call is an error and leaves the solver as it is. -/
def Z3_solver_pop (s : Z3_solver) : Z3_solver :=
  match s.scopes with
  | [] => s
  | n :: rest => { assertions := s.assertions.take n, scopes := rest }

def Z3_solver_assert (s : Z3_solver) (a : Z3_ast) : Z3_solver :=
  { s with assertions := s.assertions ++ [a] }

def Z3_solver_check (c : Z3_context) (s : Z3_solver) : Z3_lbool :=
  c.check s.assertions

def Z3_simplify (c : Z3_context) (a : Z3_ast) : Z3_ast := c.simplify a

def Z3_mk_bv_sort (sz : Nat) : Z3_sort := .bv sz

/-- The conversion of an unsigned value to the C type `int` (32 bits, two's
complement): the low 32 bits, read as a signed number. -/
def to_int (v : Nat) : Int :=
  if v % 2 ^ 32 < 2 ^ 31 then ((v % 2 ^ 32 : Nat) : Int)
  else ((v % 2 ^ 32 : Nat) : Int) - ((2 ^ 32 : Nat) : Int)

/-- The conversion of a C `int` to `unsigned`. -/
def to_unsigned (i : Int) : Nat := (i % ((2 ^ 32 : Nat) : Int)).toNat

/-- The numeral of `Z3_ast Z3_mk_int(Z3_context c, int v, Z3_sort ty)` at a
bit-vector sort: Z3 stores the value modulo `2 ^ sz`.  A sort of width zero or
the Boolean sort is a Z3 error. -/
def Z3_mk_int (v : Int) (ty : Z3_sort) : Z3_ast :=
  match ty with
  | .bv sz => if sz = 0 then .null else .numeral (Z3_unsigned sz v) sz
  | .bool => .null

def Z3_mk_const (name : String) (ty : Z3_sort) : Z3_ast := .const name ty
def Z3_mk_true : Z3_ast := .mk_true
def Z3_mk_false : Z3_ast := .mk_false
def Z3_mk_not (a : Z3_ast) : Z3_ast := .mk_not a
def Z3_mk_eq (a b : Z3_ast) : Z3_ast := .app2 .Z3_OP_EQ a b
def Z3_mk_bvadd (a b : Z3_ast) : Z3_ast := .app2 .Z3_OP_BADD a b
def Z3_mk_bvmul (a b : Z3_ast) : Z3_ast := .app2 .Z3_OP_BMUL a b
def Z3_mk_bvsrem (a b : Z3_ast) : Z3_ast := .app2 .Z3_OP_BSREM a b
def Z3_mk_bvshl (a b : Z3_ast) : Z3_ast := .app2 .Z3_OP_BSHL a b
def Z3_mk_bvslt (a b : Z3_ast) : Z3_ast := .app2 .Z3_OP_SLT a b
def Z3_mk_bvsle (a b : Z3_ast) : Z3_ast := .app2 .Z3_OP_SLEQ a b
def Z3_mk_bvsgt (a b : Z3_ast) : Z3_ast := .app2 .Z3_OP_SGT a b
def Z3_mk_bvsge (a b : Z3_ast) : Z3_ast := .app2 .Z3_OP_SGEQ a b
def Z3_mk_bvult (a b : Z3_ast) : Z3_ast := .app2 .Z3_OP_ULT a b
def Z3_mk_bvule (a b : Z3_ast) : Z3_ast := .app2 .Z3_OP_ULEQ a b
def Z3_mk_bvugt (a b : Z3_ast) : Z3_ast := .app2 .Z3_OP_UGT a b
def Z3_mk_bvuge (a b : Z3_ast) : Z3_ast := .app2 .Z3_OP_UGEQ a b
def Z3_mk_concat (a b : Z3_ast) : Z3_ast := .app2 .Z3_OP_CONCAT a b
def Z3_mk_sign_ext (i : Nat) (a : Z3_ast) : Z3_ast := .sign_ext i a
def Z3_mk_zero_ext (i : Nat) (a : Z3_ast) : Z3_ast := .zero_ext i a
def Z3_mk_extract (high low : Nat) (a : Z3_ast) : Z3_ast := .extract high low a

/-! ## The state of the library -/

/-- `constexpr int kMaxFunctionArguments = 256;` -/
def kMaxFunctionArguments : Nat := 256

/-- A consecutive range of allocated bytes, `end_` exclusive (the field `end`
of the source), with its array of shadow expressions. -/
structure MemoryRegion where
  start : Nat
  end_ : Nat
  shadow : Nat → Z3_ast

/-- `bool MemoryRegion::operator<(const MemoryRegion &other) const` -/
abbrev MemoryRegion.lt (r other : MemoryRegion) : Prop := r.start < other.start

/-- `bool operator<(const MemoryRegion &r, uintptr_t addr)` -/
abbrev region_lt_addr (r : MemoryRegion) (addr : Nat) : Prop := r.end_ < addr

/-- `bool operator<(uintptr_t addr, const MemoryRegion &r)` -/
abbrev addr_lt_region (addr : Nat) (r : MemoryRegion) : Prop := addr < r.start

/-- The failed assertions of the library, and the undefined behaviour of an
invalid iterator range or an index outside an array. -/
inductive Fatal where
  | overlapping_memory_regions
  | zero_length_query
  | unknown_memory_region
  | impossible_branch
  | infeasible_path_constraint
  | undefined_behavior
  deriving DecidableEq, Repr

/-- What the library writes with `printf`. -/
inductive Output where
  | erasing (n : Int)
  | trying_to_solve (assertions : List Z3_ast)
  | found_diverging_input (assertions : List Z3_ast)
  | cant_find_diverging_input
  deriving DecidableEq, Repr

/-- The global variables of `Runtime.cpp`, and the standard output. -/
structure Runtime where
  g_context : Z3_context
  g_solver : Z3_solver
  g_return_value : Z3_ast
  g_function_arguments : Fin kMaxFunctionArguments → Z3_ast
  g_null_pointer : Z3_ast
  g_memory_regions : List MemoryRegion
  stdout : List Output

def printf (rt : Runtime) (o : Output) : Runtime :=
  { rt with stdout := rt.stdout ++ [o] }

/-! ## The ordered set of regions -/

/-- `std::set::lower_bound(addr)`: the first element `r` with `!(r < addr)`. -/
def lower_bound : List MemoryRegion → Nat → Nat
  | [], _ => 0
  | r :: rs, addr => if region_lt_addr r addr then lower_bound rs addr + 1 else 0

/-- `std::set::upper_bound(addr)`: the first element `r` with `addr < r`. -/
def upper_bound : List MemoryRegion → Nat → Nat
  | [], _ => 0
  | r :: rs, addr => if addr_lt_region addr r then 0 else upper_bound rs addr + 1

/-- `std::set::find(addr)`: the element at `lower_bound(addr)`, unless that is
`end()` or `addr < *it`. -/
def find (rs : List MemoryRegion) (addr : Nat) : Option MemoryRegion :=
  match rs.drop (lower_bound rs addr) with
  | [] => none
  | r :: _ => if addr_lt_region addr r then none else some r

/-- `std::set::erase(first, last)`: the elements in `[first, last)` go; a range
with `last` before `first` is not a valid range. -/
def erase (rs : List MemoryRegion) (first last : Nat) : Option (List MemoryRegion) :=
  if first ≤ last then some (rs.take first ++ rs.drop last) else none

/-- `std::set::insert(r)`: `r` goes to its place in the order of
`MemoryRegion::operator<`; nothing happens when an equivalent element (the
same `start`) is there already. -/
def insert : List MemoryRegion → MemoryRegion → List MemoryRegion
  | [], r => [r]
  | x :: xs, r =>
      if MemoryRegion.lt r x then r :: x :: xs
      else if MemoryRegion.lt x r then x :: insert xs r
      else x :: xs

/-- The loop of `assert_memory_region_invariant`, from the value of
`last_end`; `false` is the failed assertion. -/
def assert_memory_region_invariant_from : List MemoryRegion → Nat → Bool
  | [], _ => true
  | region :: rest, last_end =>
      if region.start ≥ last_end then assert_memory_region_invariant_from rest region.end_
      else false

def assert_memory_region_invariant (rt : Runtime) : Bool :=
  assert_memory_region_invariant_from rt.g_memory_regions 0

/-! ## The functions of the library -/

/-- The context and solver are new, the null pointer is the zero of
`8 * sizeof(void *)` bits. -/
def _sym_initialize (rt : Runtime) (cfg : Z3_context) : Runtime :=
  { rt with
    g_context := cfg
    g_solver := Z3_mk_solver
    g_null_pointer := Z3_mk_int 0 (Z3_mk_bv_sort (8 * 8)) }

/-- `SYM_INITIALIZE_ARRAY(bits)`: the array `expression` after the first
`n_elements` iterations; `value i` is read as a `uint<bits>_t` and passed to
the `int` parameter of `Z3_mk_int`. -/
def SYM_INITIALIZE_ARRAY (bits : Nat) (expression : Nat → Z3_ast) (value : Nat → Nat) :
    Nat → Nat → Z3_ast
  | 0 => expression
  | i + 1 =>
      Function.update (SYM_INITIALIZE_ARRAY bits expression value i) i
        (Z3_mk_int (to_int (value i % 2 ^ bits)) (Z3_mk_bv_sort bits))

def _sym_initialize_array_8 (expression : Nat → Z3_ast) (value : Nat → Nat) (n_elements : Nat) :
    Nat → Z3_ast :=
  SYM_INITIALIZE_ARRAY 8 expression value n_elements

def _sym_initialize_array_16 (expression : Nat → Z3_ast) (value : Nat → Nat) (n_elements : Nat) :
    Nat → Z3_ast :=
  SYM_INITIALIZE_ARRAY 16 expression value n_elements

def _sym_initialize_array_32 (expression : Nat → Z3_ast) (value : Nat → Nat) (n_elements : Nat) :
    Nat → Z3_ast :=
  SYM_INITIALIZE_ARRAY 32 expression value n_elements

def _sym_initialize_array_64 (expression : Nat → Z3_ast) (value : Nat → Nat) (n_elements : Nat) :
    Nat → Z3_ast :=
  SYM_INITIALIZE_ARRAY 64 expression value n_elements

/-- `Z3_mk_int(g_context, value, Z3_mk_bv_sort(g_context, bits))`: the
`uint64_t value` is converted to the `int` parameter of `Z3_mk_int`. -/
def _sym_build_integer (value : Nat) (bits : Nat) : Z3_ast :=
  Z3_mk_int (to_int value) (Z3_mk_bv_sort (bits % 2 ^ 8))

/-- The concrete value is returned and the symbolic constant goes to the
return slot. -/
def _sym_build_variable (rt : Runtime) (name : String) (value : Nat) (bits : Nat) :
    Nat × Runtime :=
  (value, { rt with g_return_value := Z3_mk_const name (Z3_mk_bv_sort (bits % 2 ^ 8)) })

def _sym_build_null_pointer (rt : Runtime) : Z3_ast := rt.g_null_pointer

def _sym_build_add (a b : Z3_ast) : Z3_ast := Z3_mk_bvadd a b
def _sym_build_mul (a b : Z3_ast) : Z3_ast := Z3_mk_bvmul a b
def _sym_build_signed_rem (a b : Z3_ast) : Z3_ast := Z3_mk_bvsrem a b
def _sym_build_shift_left (a b : Z3_ast) : Z3_ast := Z3_mk_bvshl a b
def _sym_build_neg (expr : Z3_ast) : Z3_ast := Z3_mk_not expr
def _sym_build_signed_less_than (a b : Z3_ast) : Z3_ast := Z3_mk_bvslt a b
def _sym_build_signed_less_equal (a b : Z3_ast) : Z3_ast := Z3_mk_bvsle a b
def _sym_build_signed_greater_than (a b : Z3_ast) : Z3_ast := Z3_mk_bvsgt a b
def _sym_build_signed_greater_equal (a b : Z3_ast) : Z3_ast := Z3_mk_bvsge a b
def _sym_build_unsigned_less_than (a b : Z3_ast) : Z3_ast := Z3_mk_bvult a b
def _sym_build_unsigned_less_equal (a b : Z3_ast) : Z3_ast := Z3_mk_bvule a b
def _sym_build_unsigned_greater_than (a b : Z3_ast) : Z3_ast := Z3_mk_bvugt a b
def _sym_build_unsigned_greater_equal (a b : Z3_ast) : Z3_ast := Z3_mk_bvuge a b
def _sym_build_equal (a b : Z3_ast) : Z3_ast := Z3_mk_eq a b
def _sym_build_not_equal (a b : Z3_ast) : Z3_ast := Z3_mk_not (_sym_build_equal a b)

def _sym_build_sext (expr : Z3_ast) (bits : Nat) : Z3_ast :=
  Z3_mk_sign_ext (bits % 2 ^ 8) expr

def _sym_build_zext (expr : Z3_ast) (bits : Nat) : Z3_ast :=
  Z3_mk_zero_ext (bits % 2 ^ 8) expr

/-- `Z3_mk_extract(g_context, bits - 1, 0, expr)`: `bits - 1` is computed in
`int` and converted to the `unsigned` parameter `high`. -/
def _sym_build_trunc (expr : Z3_ast) (bits : Nat) : Z3_ast :=
  Z3_mk_extract (to_unsigned (((bits % 2 ^ 8 : Nat) : Int) - 1)) 0 expr

/-- `g_function_arguments[index] = expr`; an index outside the array is
undefined behaviour. -/
def _sym_set_parameter_expression (rt : Runtime) (index : Nat) (expr : Z3_ast) :
    Except Fatal Runtime :=
  if h : index % 2 ^ 8 < kMaxFunctionArguments then
    .ok { rt with
          g_function_arguments := Function.update rt.g_function_arguments ⟨index % 2 ^ 8, h⟩ expr }
  else .error .undefined_behavior

def _sym_get_parameter_expression (rt : Runtime) (index : Nat) : Except Fatal (Z3_ast × Runtime) :=
  if h : index % 2 ^ 8 < kMaxFunctionArguments then
    .ok (rt.g_function_arguments ⟨index % 2 ^ 8, h⟩, rt)
  else .error .undefined_behavior

def _sym_set_return_expression (rt : Runtime) (expr : Z3_ast) : Runtime :=
  { rt with g_return_value := expr }

def _sym_get_return_expression (rt : Runtime) : Z3_ast × Runtime := (rt.g_return_value, rt)

/-- The general path of `_sym_push_path_constraint`, lines 214 to 240:
`constraint` is the simplified condition, neither `true` nor `false`. -/
def push_path_constraint_general (rt : Runtime) (constraint : Z3_ast) (taken : Int) :
    Except Fatal (Z3_ast × Runtime) :=
  let not_constraint := Z3_simplify rt.g_context (Z3_mk_not constraint)
  let rt1 := { rt with g_solver := Z3_solver_push rt.g_solver }
  let rt2 := { rt1 with
               g_solver := Z3_solver_assert rt1.g_solver
                 (if taken ≠ 0 then not_constraint else constraint) }
  let rt3 := printf rt2 (.trying_to_solve rt2.g_solver.assertions)
  let feasible := Z3_solver_check rt3.g_context rt3.g_solver
  let rt4 :=
    if feasible = .Z3_L_TRUE then printf rt3 (.found_diverging_input rt3.g_solver.assertions)
    else printf rt3 .cant_find_diverging_input
  let rt5 := { rt4 with g_solver := Z3_solver_pop rt4.g_solver }
  let newConstraint := if taken ≠ 0 then constraint else not_constraint
  let rt6 := { rt5 with g_solver := Z3_solver_assert rt5.g_solver newConstraint }
  if Z3_solver_check rt6.g_context rt6.g_solver = .Z3_L_TRUE then .ok (newConstraint, rt6)
  else .error .infeasible_path_constraint

/-- `Z3_ast _sym_push_path_constraint(Z3_ast constraint, int taken)`;
`Z3_is_eq_ast` is equality of terms. -/
def _sym_push_path_constraint (rt : Runtime) (constraint : Z3_ast) (taken : Int) :
    Except Fatal (Z3_ast × Runtime) :=
  let constraint := Z3_simplify rt.g_context constraint
  if constraint = Z3_mk_true then
    if taken ≠ 0 then .ok (constraint, rt) else .error .impossible_branch
  else if constraint = Z3_mk_false then
    if ¬ taken ≠ 0 then .ok (Z3_mk_not constraint, rt) else .error .impossible_branch
  else push_path_constraint_general rt constraint taken

/-- `void _sym_register_memory(uintptr_t addr, Z3_ast *shadow, size_t length)` -/
def _sym_register_memory (rt : Runtime) (addr : Nat) (shadow : Nat → Z3_ast) (length : Nat) :
    Except Fatal Runtime :=
  if assert_memory_region_invariant rt = false then .error .overlapping_memory_regions
  else
    let first := lower_bound rt.g_memory_regions addr
    let last := upper_bound rt.g_memory_regions ((addr + length) % 2 ^ 64)
    let rt1 := printf rt (.erasing ((last : Int) - (first : Int)))
    match erase rt1.g_memory_regions first last with
    | none => .error .undefined_behavior
    | some rs =>
        .ok { rt1 with
              g_memory_regions := insert rs ⟨addr, (addr + length) % 2 ^ 64, shadow⟩ }

/-- The loop of `_sym_read_memory`: the value of `expr` after the iterations
`i = 1, ..., k` (`k = length - 1` at the exit of the loop). -/
def read_memory_loop (shadow : Nat → Z3_ast) (little_endian : Bool) : Nat → Z3_ast
  | 0 => shadow 0
  | i + 1 =>
      if little_endian then Z3_mk_concat (shadow (i + 1)) (read_memory_loop shadow little_endian i)
      else Z3_mk_concat (read_memory_loop shadow little_endian i) (shadow (i + 1))

/-- `Z3_ast _sym_read_memory(uintptr_t addr, size_t length, bool little_endian)`;
`find` has `region->start <= addr`, so `addr - region->start` does not wrap. -/
def _sym_read_memory (rt : Runtime) (addr : Nat) (length : Nat) (little_endian : Bool) :
    Except Fatal (Z3_ast × Runtime) :=
  if assert_memory_region_invariant rt = false then .error .overlapping_memory_regions
  else if length = 0 then .error .zero_length_query
  else
    match find rt.g_memory_regions addr with
    | none => .error .unknown_memory_region
    | some region =>
        if (addr + length) % 2 ^ 64 ≤ region.end_ then
          let shadow := fun i => region.shadow (addr - region.start + i)
          .ok (read_memory_loop shadow little_endian (length - 1), rt)
        else .error .unknown_memory_region

/-! ## Sequences of calls and reachable states -/

/-- The arguments of one call of `_sym_register_memory`. -/
structure RegisterCall where
  addr : Nat
  shadow : Nat → Z3_ast
  length : Nat

/-- A sequence of calls of `_sym_register_memory`, in order. -/
def register_all (rt : Runtime) : List RegisterCall → Except Fatal Runtime
  | [] => .ok rt
  | c :: cs =>
      match _sym_register_memory rt c.addr c.shadow c.length with
      | .ok rt1 => register_all rt1 cs
      | .error e => .error e

/-- The registry `rs` is reachable: it is the registry after some sequence of
registrations, none of which wraps around the address space, that starts from
the empty registry. -/
def Reachable (rs : List MemoryRegion) : Prop :=
  ∃ (rt0 rt : Runtime) (calls : List RegisterCall),
    rt0.g_memory_regions = [] ∧ (∀ c ∈ calls, c.addr + c.length < 2 ^ 64) ∧
    register_all rt0 calls = .ok rt ∧ rt.g_memory_regions = rs

/-- A sequence of calls of `_sym_push_path_constraint`, in order. -/
def push_all (rt : Runtime) : List (Z3_ast × Int) → Except Fatal Runtime
  | [] => .ok rt
  | c :: cs =>
      match _sym_push_path_constraint rt c.1 c.2 with
      | .ok r => push_all r.2 cs
      | .error e => .error e

/-- The assignment `σ` is a model of the formulas `as`. -/
def Z3_models (σ : Z3_assignment) (as : List Z3_ast) : Prop :=
  ∀ a ∈ as, Z3_eval σ a = some (.bool true)

/-- A region holds the address `a`. -/
def MemoryRegion.contains (r : MemoryRegion) (a : Nat) : Prop := r.start ≤ a ∧ a < r.end_

/-- The regions are in ascending order of `start` and every one ends strictly
before the next starts. -/
def StrictlySeparated (rs : List MemoryRegion) : Prop :=
  (∀ r ∈ rs, r.start ≤ r.end_) ∧ rs.Pairwise (fun a b => a.end_ < b.start)

/-- The globals at program start, with the Z3 library `c`: every handle is
null, the solver has no assertion, no region is registered, nothing is
printed. -/
def zero_initialized (c : Z3_context) : Runtime :=
  { g_context := c
    g_solver := Z3_mk_solver
    g_return_value := .null
    g_function_arguments := fun _ => .null
    g_null_pointer := .null
    g_memory_regions := []
    stdout := [] }

/-- A shadow array of 8-bit numerals: entry `i` is the numeral `base + i`. -/
def numeral_shadow (base : Nat) : Nat → Z3_ast :=
  fun i => Z3_mk_int ((base + i : Nat) : Int) (Z3_mk_bv_sort 8)

/-- A Z3 stand-in that simplifies nothing and finds every set satisfiable. -/
def Z3_no_simplifier : Z3_context := ⟨fun a => a, fun _ => .Z3_L_TRUE⟩

/-- The state after `_sym_register_memory(16, s, 16)` and
`_sym_register_memory(48, t, 16)` from the start state: the regions `[16, 32)`
and `[48, 64)`. -/
def two_region_runtime : Runtime :=
  { zero_initialized Z3_no_simplifier with
    g_memory_regions := [⟨16, 32, numeral_shadow 0⟩, ⟨48, 64, numeral_shadow 16⟩]
    stdout := [.erasing 0, .erasing 0] }

/-- The state after `_sym_register_memory(2 ^ 64 - 2, s, 1)` from the start
state: the one-byte region just below the last address. -/
def top_region_runtime : Runtime :=
  { zero_initialized Z3_no_simplifier with
    g_memory_regions := [⟨2 ^ 64 - 2, 2 ^ 64 - 1, numeral_shadow 0⟩]
    stdout := [.erasing 0] }

/-- The state after `_sym_register_memory(16, s, 16)` from the start state,
where `s[i]` is the 8-bit numeral `5 - i`. -/
def descending_region_runtime : Runtime :=
  { zero_initialized Z3_no_simplifier with
    g_memory_regions := [⟨16, 32, fun i => Z3_mk_int ((5 - i : Nat) : Int) (Z3_mk_bv_sort 8)⟩]
    stdout := [.erasing 0] }

/-- The simplifier of the context preserves the value of every expression
under every assignment. -/
def SemanticsPreserving (c : Z3_context) : Prop :=
  ∀ (σ : Z3_assignment) (e : Z3_ast), Z3_eval σ (c.simplify e) = Z3_eval σ e

/-- The satisfiability check of the context is complete: a set of formulas
that has a model is reported satisfiable. -/
def CompleteOracle (c : Z3_context) : Prop :=
  ∀ as : List Z3_ast, (∃ σ, Z3_models σ as) → c.check as = .Z3_L_TRUE

/-- The satisfiability check of the context is sound: a set of formulas that
is reported satisfiable has a model. -/
def SoundOracle (c : Z3_context) : Prop :=
  ∀ as : List Z3_ast, c.check as = .Z3_L_TRUE → ∃ σ, Z3_models σ as

/-- A bit-vector value is below `2 ^ sz`. -/
def Z3_value.wf : Z3_value → Prop
  | .bool _ => True
  | .bv sz n => n < 2 ^ sz

/-- An expression of 256 bits with the value 1, built by the library: the
255-bit constant 1, zero-extended by one bit. -/
def wide_one : Z3_ast := _sym_build_zext (_sym_build_integer 1 255) 1

/-- The side of the branch that was not taken, line 219:
`taken ? not_constraint : constraint`, for the simplified `constraint`. -/
def untaken_side (rt : Runtime) (constraint : Z3_ast) (taken : Int) : Z3_ast :=
  if taken ≠ 0 then Z3_simplify rt.g_context (Z3_mk_not constraint) else constraint

/-- The side of the branch that was taken, line 236:
`taken ? constraint : not_constraint`, for the simplified `constraint`. -/
def taken_side (rt : Runtime) (constraint : Z3_ast) (taken : Int) : Z3_ast :=
  if taken ≠ 0 then constraint else Z3_simplify rt.g_context (Z3_mk_not constraint)

/-- The solver at the time of the probe, lines 218 and 219: a scope is pushed
and the untaken side asserted. -/
def push_path_constraint_probe_solver (rt : Runtime) (constraint : Z3_ast) (taken : Int) :
    Z3_solver :=
  Z3_solver_assert (Z3_solver_push rt.g_solver) (untaken_side rt constraint taken)

/-- Lines 214 to 233 of `_sym_push_path_constraint`: the state after the probe
of the untaken side and `Z3_solver_pop`, before the taken side is asserted. -/
def push_path_constraint_probe (rt : Runtime) (constraint : Z3_ast) (taken : Int) : Runtime :=
  let rt2 := { rt with g_solver := push_path_constraint_probe_solver rt constraint taken }
  let rt3 := printf rt2 (.trying_to_solve rt2.g_solver.assertions)
  let feasible := Z3_solver_check rt3.g_context rt3.g_solver
  let rt4 :=
    if feasible = .Z3_L_TRUE then printf rt3 (.found_diverging_input rt3.g_solver.assertions)
    else printf rt3 .cant_find_diverging_input
  { rt4 with g_solver := Z3_solver_pop rt4.g_solver }

/-- A Z3 stand-in that simplifies nothing and tries a single assignment, the
one that gives every constant the number 1: it reports `Z3_L_TRUE` when that
assignment is a model and gives up with `Z3_L_UNDEF` otherwise. -/
def Z3_one_model_oracle : Z3_context :=
  ⟨fun a => a,
   fun as => if as.all (fun a => decide (Z3_eval (fun _ _ => 1) a = some (.bool true)))
     then .Z3_L_TRUE else .Z3_L_UNDEF⟩

/-- The assignment `x = n`: the constant named `x` is `n`, every other one 0. -/
def assign_x (n : Nat) : Z3_assignment := fun name _ => if name = "x" then n else 0

/-- The expression of `x` in the example: what `_sym_get_return_expression`
gives after `_sym_build_variable("x", 5, 8)`. -/
def example_x (rt0 : Runtime) : Z3_ast :=
  (_sym_get_return_expression (_sym_build_variable rt0 "x" 5 8).2).1

/-- `x + 3` in 8 bits. -/
def example_sum (rt0 : Runtime) : Z3_ast :=
  _sym_build_add (example_x rt0) (_sym_build_integer 3 8)

/-- The condition `(x + 3) < 10` of the example, with the signed or the
unsigned comparison. -/
def example_condition (rt0 : Runtime) (signed : Bool) : Z3_ast :=
  if signed then _sym_build_signed_less_than (example_sum rt0) (_sym_build_integer 10 8)
  else _sym_build_unsigned_less_than (example_sum rt0) (_sym_build_integer 10 8)

/-- The negation `(x + 3) >= 10` of the condition of the example. -/
def example_negation (rt0 : Runtime) (signed : Bool) : Z3_ast :=
  if signed then _sym_build_signed_greater_equal (example_sum rt0) (_sym_build_integer 10 8)
  else _sym_build_unsigned_greater_equal (example_sum rt0) (_sym_build_integer 10 8)

/-! ## The ordered set: bounds, erasure and insertion -/

theorem lower_bound_le_length (rs : List MemoryRegion) (addr : Nat) :
    lower_bound rs addr ≤ rs.length := by
  induction rs with
  | nil => simp [lower_bound]
  | cons r rs ih =>
    simp only [lower_bound]
    split
    · simp only [List.length_cons]; omega
    · simp

theorem upper_bound_le_length (rs : List MemoryRegion) (key : Nat) :
    upper_bound rs key ≤ rs.length := by
  induction rs with
  | nil => simp [upper_bound]
  | cons r rs ih =>
    simp only [upper_bound]
    split
    · simp
    · simp only [List.length_cons]; omega

/-- Everything before `lower_bound` ends below the address. -/
theorem take_lower_bound_lt (rs : List MemoryRegion) (addr : Nat) :
    ∀ r ∈ rs.take (lower_bound rs addr), r.end_ < addr := by
  induction rs with
  | nil => simp [lower_bound]
  | cons x rs ih =>
    intro r hr
    simp only [lower_bound] at hr
    by_cases hx : region_lt_addr x addr
    · rw [if_pos hx, List.take_succ_cons, List.mem_cons] at hr
      rcases hr with rfl | hr
      · exact hx
      · exact ih r hr
    · rw [if_neg hx] at hr
      simp at hr

/-- Everything before `upper_bound` starts at or below the key. -/
theorem take_upper_bound_le (rs : List MemoryRegion) (key : Nat) :
    ∀ r ∈ rs.take (upper_bound rs key), r.start ≤ key := by
  induction rs with
  | nil => simp [upper_bound]
  | cons x rs ih =>
    intro r hr
    simp only [upper_bound] at hr
    by_cases hx : addr_lt_region key x
    · rw [if_pos hx] at hr
      simp at hr
    · rw [if_neg hx, List.take_succ_cons, List.mem_cons] at hr
      rcases hr with rfl | hr
      · exact Nat.le_of_not_lt hx
      · exact ih r hr

theorem StrictlySeparated.tail {x : MemoryRegion} {rs : List MemoryRegion}
    (h : StrictlySeparated (x :: rs)) : StrictlySeparated rs :=
  ⟨fun r hr => h.1 r (List.mem_cons_of_mem _ hr), (List.pairwise_cons.1 h.2).2⟩

theorem StrictlySeparated.head_lt {x : MemoryRegion} {rs : List MemoryRegion}
    (h : StrictlySeparated (x :: rs)) : ∀ r ∈ rs, x.end_ < r.start :=
  (List.pairwise_cons.1 h.2).1

/-- In a separated registry everything from `lower_bound` on ends at or above
the address: the sequence is partitioned by `operator<(MemoryRegion, uintptr_t)`. -/
theorem drop_lower_bound_ge (rs : List MemoryRegion) (addr : Nat) (hs : StrictlySeparated rs) :
    ∀ r ∈ rs.drop (lower_bound rs addr), addr ≤ r.end_ := by
  induction rs with
  | nil => simp [lower_bound]
  | cons x rs ih =>
    intro r hr
    simp only [lower_bound] at hr
    by_cases hx : region_lt_addr x addr
    · rw [if_pos hx, List.drop_succ_cons] at hr
      exact ih hs.tail r hr
    · rw [if_neg hx, List.drop_zero, List.mem_cons] at hr
      have hx2 : addr ≤ x.end_ := Nat.le_of_not_lt hx
      rcases hr with rfl | hr
      · exact hx2
      · have h1 := hs.head_lt r hr
        have h2 := hs.1 r (List.mem_cons_of_mem _ hr)
        omega

/-- In a separated registry everything from `upper_bound` on starts above the
key: the sequence is partitioned by `operator<(uintptr_t, MemoryRegion)`. -/
theorem drop_upper_bound_gt (rs : List MemoryRegion) (key : Nat) (hs : StrictlySeparated rs) :
    ∀ r ∈ rs.drop (upper_bound rs key), key < r.start := by
  induction rs with
  | nil => simp [upper_bound]
  | cons x rs ih =>
    intro r hr
    simp only [upper_bound] at hr
    by_cases hx : addr_lt_region key x
    · rw [if_pos hx, List.drop_zero, List.mem_cons] at hr
      rcases hr with rfl | hr
      · exact hx
      · have h1 := hs.head_lt r hr
        have h2 := hs.1 x (List.mem_cons_self _ _)
        have h3 : key < x.start := hx
        omega
    · rw [if_neg hx, List.drop_succ_cons] at hr
      exact ih hs.tail r hr

/-- The range handed to `erase` is a valid range. -/
theorem lower_bound_le_upper_bound (rs : List MemoryRegion) (addr key : Nat)
    (hs : StrictlySeparated rs) (hk : addr ≤ key) :
    lower_bound rs addr ≤ upper_bound rs key := by
  induction rs with
  | nil => simp [lower_bound]
  | cons x rs ih =>
    simp only [lower_bound, upper_bound]
    by_cases hx : region_lt_addr x addr
    · have h1 : x.end_ < addr := hx
      have h2 := hs.1 x (List.mem_cons_self _ _)
      have h3 : ¬ addr_lt_region key x := by
        intro h
        have h4 : key < x.start := h
        omega
      rw [if_pos hx, if_neg h3]
      have := ih hs.tail
      omega
    · rw [if_neg hx]
      exact Nat.zero_le _

/-- A new element goes between the elements that end before it starts and the
elements that start after it. -/
theorem insert_between (A B : List MemoryRegion) (r : MemoryRegion)
    (hA : ∀ a ∈ A, a.start < r.start) (hB : ∀ b ∈ B, r.start < b.start) :
    insert (A ++ B) r = A ++ r :: B := by
  induction A with
  | nil =>
    cases B with
    | nil => simp [insert]
    | cons b B =>
      have hb : MemoryRegion.lt r b := hB b (List.mem_cons_self _ _)
      simp [insert, hb]
  | cons a A ih =>
    have ha : a.start < r.start := hA a (List.mem_cons_self _ _)
    have h1 : ¬ MemoryRegion.lt r a := by
      intro h
      have h2 : r.start < a.start := h
      omega
    have h2 : MemoryRegion.lt a r := ha
    rw [List.cons_append, insert, if_neg h1, if_pos h2,
      ih (fun x hx => hA x (List.mem_cons_of_mem _ hx)), List.cons_append]

theorem StrictlySeparated.sublist {l₁ l₂ : List MemoryRegion} (h : l₁.Sublist l₂)
    (hs : StrictlySeparated l₂) : StrictlySeparated l₁ :=
  ⟨fun r hr => hs.1 r (h.subset hr), hs.2.sublist h⟩

/-- The loop of `assert_memory_region_invariant` passes on a separated
registry whose regions all start at or above `last_end`. -/
theorem assert_from_of_separated (rs : List MemoryRegion) (last_end : Nat)
    (hs : StrictlySeparated rs) (hl : ∀ r ∈ rs, last_end ≤ r.start) :
    assert_memory_region_invariant_from rs last_end = true := by
  induction rs generalizing last_end with
  | nil => simp [assert_memory_region_invariant_from]
  | cons x rs ih =>
    have hx : x.start ≥ last_end := hl x (List.mem_cons_self _ _)
    simp only [assert_memory_region_invariant_from, if_pos hx]
    exact ih x.end_ hs.tail (fun r hr => Nat.le_of_lt (hs.head_lt r hr))

theorem assert_of_separated (rt : Runtime) (hs : StrictlySeparated rt.g_memory_regions) :
    assert_memory_region_invariant rt = true :=
  assert_from_of_separated _ 0 hs (fun _ _ => Nat.zero_le _)

/-! ## Registration on a separated registry -/

/-- The registry after a registration: the regions that end below `addr`, the
new region, the regions that start above `addr + length`. -/
theorem register_memory_eq (rt : Runtime) (addr : Nat) (shadow : Nat → Z3_ast) (length : Nat)
    (hs : StrictlySeparated rt.g_memory_regions) (hw : addr + length < 2 ^ 64) :
    _sym_register_memory rt addr shadow length =
      .ok { printf rt (.erasing ((upper_bound rt.g_memory_regions (addr + length) : Int) -
              (lower_bound rt.g_memory_regions addr : Int))) with
            g_memory_regions :=
              rt.g_memory_regions.take (lower_bound rt.g_memory_regions addr) ++
                ⟨addr, addr + length, shadow⟩ ::
                  rt.g_memory_regions.drop (upper_bound rt.g_memory_regions (addr + length)) } := by
  have hinv := assert_of_separated rt hs
  have hmod : (addr + length) % 2 ^ 64 = addr + length := Nat.mod_eq_of_lt hw
  have hle := lower_bound_le_upper_bound rt.g_memory_regions addr (addr + length) hs
    (Nat.le_add_right _ _)
  have hins := insert_between (rt.g_memory_regions.take (lower_bound rt.g_memory_regions addr))
    (rt.g_memory_regions.drop (upper_bound rt.g_memory_regions (addr + length)))
    ⟨addr, addr + length, shadow⟩
    (fun a ha => by
      have h1 := take_lower_bound_lt _ _ a ha
      have h2 := hs.1 a (List.mem_of_mem_take ha)
      show a.start < addr
      omega)
    (fun b hb => by
      have h1 := drop_upper_bound_gt _ _ hs b hb
      show addr < b.start
      omega)
  simp only [_sym_register_memory, hinv, hmod, erase, if_pos hle, printf, hins]
  simp

/-- The three parts of the registry after a registration are a sublist of the
registry before it. -/
theorem take_append_drop_sublist (rs : List MemoryRegion) (i j : Nat) (h : i ≤ j) :
    (rs.take i ++ rs.drop j).Sublist rs := by
  have h1 : (rs.drop j).Sublist (rs.drop i) := by
    have : rs.drop j = (rs.drop i).drop (j - i) := by
      rw [List.drop_drop]
      congr 1
      omega
    rw [this]
    exact List.drop_sublist _ _
  have h2 := List.Sublist.append (List.Sublist.refl (rs.take i)) h1
  rwa [List.take_append_drop] at h2

theorem separated_insert_between (rs : List MemoryRegion) (addr length : Nat)
    (shadow : Nat → Z3_ast) (hs : StrictlySeparated rs) :
    StrictlySeparated (rs.take (lower_bound rs addr) ++
      ⟨addr, addr + length, shadow⟩ :: rs.drop (upper_bound rs (addr + length))) := by
  have hle := lower_bound_le_upper_bound rs addr (addr + length) hs (Nat.le_add_right _ _)
  have hsub := hs.sublist (take_append_drop_sublist rs _ _ hle)
  constructor
  · intro r hr
    rw [List.mem_append, List.mem_cons] at hr
    rcases hr with hr | rfl | hr
    · exact hs.1 r (List.mem_of_mem_take hr)
    · exact Nat.le_add_right _ _
    · exact hs.1 r (List.mem_of_mem_drop hr)
  · have hp := List.pairwise_append.1 hsub.2
    rw [List.pairwise_append]
    refine ⟨hp.1, ?_, ?_⟩
    · rw [List.pairwise_cons]
      exact ⟨fun b hb => drop_upper_bound_gt rs _ hs b hb, hp.2.1⟩
    · intro a ha b hb
      rw [List.mem_cons] at hb
      rcases hb with rfl | hb
      · exact take_lower_bound_lt rs addr a ha
      · exact hp.2.2 a ha b hb

theorem register_memory_separated (rt rt1 : Runtime) (addr : Nat) (shadow : Nat → Z3_ast)
    (length : Nat) (hs : StrictlySeparated rt.g_memory_regions) (hw : addr + length < 2 ^ 64)
    (h : _sym_register_memory rt addr shadow length = .ok rt1) :
    StrictlySeparated rt1.g_memory_regions := by
  rw [register_memory_eq rt addr shadow length hs hw] at h
  cases h
  exact separated_insert_between _ _ _ _ hs

/-- Registrations that do not wrap around never fail on a separated registry
and leave a separated registry. -/
theorem register_all_separated (calls : List RegisterCall) (rt : Runtime)
    (hs : StrictlySeparated rt.g_memory_regions)
    (hw : ∀ c ∈ calls, c.addr + c.length < 2 ^ 64) :
    ∃ rt1, register_all rt calls = .ok rt1 ∧ StrictlySeparated rt1.g_memory_regions := by
  induction calls generalizing rt with
  | nil => exact ⟨rt, rfl, hs⟩
  | cons c cs ih =>
    have hc := hw c (List.mem_cons_self _ _)
    have heq := register_memory_eq rt c.addr c.shadow c.length hs hc
    have hs1 := register_memory_separated rt _ c.addr c.shadow c.length hs hc heq
    obtain ⟨rt1, h1, h2⟩ := ih _ hs1 (fun x hx => hw x (List.mem_cons_of_mem _ hx))
    refine ⟨rt1, ?_, h2⟩
    simp only [register_all, heq]
    exact h1

theorem separated_nil : StrictlySeparated [] :=
  ⟨fun _ h => absurd h (List.not_mem_nil _), List.Pairwise.nil⟩

theorem Reachable.separated {rs : List MemoryRegion} (h : Reachable rs) :
    StrictlySeparated rs := by
  obtain ⟨rt0, rt, calls, h0, hw, hrun, rfl⟩ := h
  obtain ⟨rt1, h1, h2⟩ := register_all_separated calls rt0 (h0 ▸ separated_nil) hw
  rw [h1] at hrun
  cases hrun
  exact h2

theorem register_memory_not_overlapping (rt : Runtime) (addr : Nat) (shadow : Nat → Z3_ast)
    (length : Nat) (hinv : assert_memory_region_invariant rt = true) :
    _sym_register_memory rt addr shadow length ≠ .error .overlapping_memory_regions := by
  simp only [_sym_register_memory, hinv, Bool.true_eq_false, if_false]
  split <;> simp

theorem read_memory_not_overlapping (rt : Runtime) (addr length : Nat) (little_endian : Bool)
    (hinv : assert_memory_region_invariant rt = true) :
    _sym_read_memory rt addr length little_endian ≠ .error .overlapping_memory_regions := by
  simp only [_sym_read_memory, hinv, Bool.true_eq_false, if_false]
  by_cases hl : length = 0
  · simp [hl]
  · simp only [if_neg hl]
    split
    · simp
    · split <;> simp

/-! ## C1 -/

/-- C1: starting from the empty registry, every finite sequence of
`_sym_register_memory` calls whose `addr + length` does not wrap around runs
without a failed assertion, and in the registry it leaves the regions, in
ascending order of `start`, satisfy `region[i].end <= region[i+1].start`; no
address lies in two regions; and the check of `assert_memory_region_invariant`
passes, so that the assertion at the entry of a later `_sym_register_memory`
or `_sym_read_memory` does not fail. -/
theorem C1_registered_regions_never_overlap (rt0 : Runtime) (calls : List RegisterCall)
    (h0 : rt0.g_memory_regions = [])
    (hw : ∀ c ∈ calls, c.addr + c.length < 2 ^ 64) :
    ∃ rt, register_all rt0 calls = .ok rt ∧
      (∀ (i : Nat) (h : i + 1 < rt.g_memory_regions.length),
        (rt.g_memory_regions.get ⟨i, Nat.lt_of_succ_lt h⟩).start <
            (rt.g_memory_regions.get ⟨i + 1, h⟩).start ∧
          (rt.g_memory_regions.get ⟨i, Nat.lt_of_succ_lt h⟩).end_ ≤
            (rt.g_memory_regions.get ⟨i + 1, h⟩).start) ∧
      rt.g_memory_regions.Pairwise (fun r1 r2 => ∀ a, ¬ (r1.contains a ∧ r2.contains a)) ∧
      assert_memory_region_invariant rt = true ∧
      (∀ addr shadow length,
        _sym_register_memory rt addr shadow length ≠ .error .overlapping_memory_regions) ∧
      (∀ addr length little_endian,
        _sym_read_memory rt addr length little_endian ≠ .error .overlapping_memory_regions) := by
  obtain ⟨rt, hrun, hs⟩ := register_all_separated calls rt0 (h0 ▸ separated_nil) hw
  have hinv := assert_of_separated rt hs
  refine ⟨rt, hrun, ?_, ?_, hinv, ?_, ?_⟩
  · intro i h
    have h1 := List.pairwise_iff_get.1 hs.2 ⟨i, Nat.lt_of_succ_lt h⟩ ⟨i + 1, h⟩
      (by simp [Fin.lt_def])
    have h2 := hs.1 _ (List.get_mem rt.g_memory_regions i (Nat.lt_of_succ_lt h))
    omega
  · refine hs.2.imp ?_
    intro r1 r2 h a ha
    have h1 := ha.1.2
    have h2 := ha.2.1
    omega
  · intro addr shadow length
    exact register_memory_not_overlapping rt addr shadow length hinv
  · intro addr length little_endian
    exact read_memory_not_overlapping rt addr length little_endian hinv

/-- Three registrations, the third one inside the first region: the premises
of C1 hold and its conclusion follows. -/
theorem C1_registered_regions_never_overlap_witness :
    (zero_initialized Z3_no_simplifier).g_memory_regions = [] ∧
    (∀ c ∈ [RegisterCall.mk 16 (numeral_shadow 0) 16, RegisterCall.mk 48 (numeral_shadow 16) 16,
        RegisterCall.mk 24 (numeral_shadow 32) 4], c.addr + c.length < 2 ^ 64) ∧
    ∃ rt, register_all (zero_initialized Z3_no_simplifier)
        [RegisterCall.mk 16 (numeral_shadow 0) 16, RegisterCall.mk 48 (numeral_shadow 16) 16,
          RegisterCall.mk 24 (numeral_shadow 32) 4] = .ok rt ∧
      (∀ (i : Nat) (h : i + 1 < rt.g_memory_regions.length),
        (rt.g_memory_regions.get ⟨i, Nat.lt_of_succ_lt h⟩).start <
            (rt.g_memory_regions.get ⟨i + 1, h⟩).start ∧
          (rt.g_memory_regions.get ⟨i, Nat.lt_of_succ_lt h⟩).end_ ≤
            (rt.g_memory_regions.get ⟨i + 1, h⟩).start) ∧
      rt.g_memory_regions.Pairwise (fun r1 r2 => ∀ a, ¬ (r1.contains a ∧ r2.contains a)) ∧
      assert_memory_region_invariant rt = true ∧
      (∀ addr shadow length,
        _sym_register_memory rt addr shadow length ≠ .error .overlapping_memory_regions) ∧
      (∀ addr length little_endian,
        _sym_read_memory rt addr length little_endian ≠ .error .overlapping_memory_regions) :=
  ⟨rfl, by simp, C1_registered_regions_never_overlap _ _ rfl (by simp)⟩

/-! ## C2 -/

/-- C2 (the code at the failing inputs): with the region `[16, 32)`
registered, registering `[32, 48)` erases it, and with `[32, 48)` registered,
registering `[16, 32)` erases it, although the two ranges share no address.
`lower_bound(addr)` stops at a region with `end == addr` and
`upper_bound(addr + length)` passes a region with `start == addr + length`. -/
theorem C2_adjacent_region_is_erased :
    (∃ rt1 rt2,
      _sym_register_memory (zero_initialized Z3_no_simplifier) 16 (numeral_shadow 0) 16 = .ok rt1 ∧
      rt1.g_memory_regions.map (fun r => (r.start, r.end_)) = [(16, 32)] ∧
      _sym_register_memory rt1 32 (numeral_shadow 16) 16 = .ok rt2 ∧
      rt2.g_memory_regions.map (fun r => (r.start, r.end_)) = [(32, 48)]) ∧
    (∃ rt1 rt2,
      _sym_register_memory (zero_initialized Z3_no_simplifier) 32 (numeral_shadow 16) 16 = .ok rt1 ∧
      rt1.g_memory_regions.map (fun r => (r.start, r.end_)) = [(32, 48)] ∧
      _sym_register_memory rt1 16 (numeral_shadow 0) 16 = .ok rt2 ∧
      rt2.g_memory_regions.map (fun r => (r.start, r.end_)) = [(16, 32)]) ∧
    (∀ a, ¬ ((16 ≤ a ∧ a < 32) ∧ (32 ≤ a ∧ a < 48))) :=
  ⟨⟨_, _, rfl, rfl, rfl, rfl⟩, ⟨_, _, rfl, rfl, rfl, rfl⟩, fun a h => by omega⟩

/-! ## Lookup -/

/-- The element at `lower_bound` does not end below the address. -/
theorem drop_lower_bound_head (rs : List MemoryRegion) (addr : Nat) (r : MemoryRegion)
    (t : List MemoryRegion) (h : rs.drop (lower_bound rs addr) = r :: t) : addr ≤ r.end_ := by
  induction rs with
  | nil => simp [lower_bound] at h
  | cons x rs ih =>
    simp only [lower_bound] at h
    by_cases hx : region_lt_addr x addr
    · rw [if_pos hx, List.drop_succ_cons] at h
      exact ih h
    · rw [if_neg hx, List.drop_zero] at h
      cases h
      exact Nat.le_of_not_lt hx

/-- What `find` returns is a registered region with `start <= addr <= end`. -/
theorem find_some (rs : List MemoryRegion) (addr : Nat) (r : MemoryRegion)
    (h : find rs addr = some r) : r ∈ rs ∧ r.start ≤ addr ∧ addr ≤ r.end_ := by
  unfold find at h
  split at h
  · cases h
  · rename_i x t hd
    by_cases hx : addr_lt_region addr x
    · rw [if_pos hx] at h
      cases h
    · rw [if_neg hx] at h
      cases h
      refine ⟨?_, Nat.le_of_not_lt hx, drop_lower_bound_head rs addr _ t hd⟩
      exact List.mem_of_mem_drop (hd ▸ List.mem_cons_self _ _)

theorem lower_bound_append (A L : List MemoryRegion) (addr : Nat)
    (hA : ∀ x ∈ A, x.end_ < addr) :
    lower_bound (A ++ L) addr = A.length + lower_bound L addr := by
  induction A with
  | nil => simp
  | cons x A ih =>
    have hx : region_lt_addr x addr := hA x (List.mem_cons_self _ _)
    rw [List.cons_append, lower_bound, if_pos hx, ih (fun y hy => hA y (List.mem_cons_of_mem _ hy)),
      List.length_cons]
    omega

/-- The lookup of an address of a region that follows regions ending below
the address. -/
theorem find_append_cons (A B : List MemoryRegion) (r : MemoryRegion) (addr : Nat)
    (hA : ∀ x ∈ A, x.end_ < addr) (h1 : r.start ≤ addr) (h2 : addr ≤ r.end_) :
    find (A ++ r :: B) addr = some r := by
  have hr : ¬ region_lt_addr r addr := Nat.not_lt.2 h2
  have hlb : lower_bound (A ++ r :: B) addr = A.length := by
    rw [lower_bound_append A _ addr hA, lower_bound, if_neg hr]
    rfl
  have hn : ¬ addr_lt_region addr r := Nat.not_lt.2 h1
  unfold find
  rw [hlb, List.drop_left]
  simp only [if_neg hn]

/-- In a separated registry at most one region has `start <= a <= end`. -/
theorem separated_unique (rs : List MemoryRegion) (hs : StrictlySeparated rs)
    (r1 r2 : MemoryRegion) (h1 : r1 ∈ rs) (h2 : r2 ∈ rs) (a : Nat)
    (ha1 : r1.start ≤ a ∧ a ≤ r1.end_) (ha2 : r2.start ≤ a ∧ a ≤ r2.end_) : r1 = r2 := by
  induction rs with
  | nil => cases h1
  | cons x rs ih =>
    rw [List.mem_cons] at h1 h2
    rcases h1 with rfl | h1 <;> rcases h2 with rfl | h2
    · rfl
    · have := hs.head_lt r2 h2
      omega
    · have := hs.head_lt r1 h1
      omega
    · exact ih hs.tail h1 h2

/-- In a separated registry `find` returns the region that holds the address. -/
theorem find_of_contains (rs : List MemoryRegion) (hs : StrictlySeparated rs)
    (r : MemoryRegion) (hr : r ∈ rs) (addr : Nat) (hc : r.contains addr) :
    find rs addr = some r := by
  obtain ⟨A, B, rfl⟩ := List.append_of_mem hr
  have hp := List.pairwise_append.1 hs.2
  refine find_append_cons A B r addr (fun x hx => ?_) hc.1 (Nat.le_of_lt hc.2)
  have h1 := hp.2.2 x hx r (List.mem_cons_self _ _)
  have h2 := hc.1
  omega

/-! ## Reading -/

/-- A read that passes its assertions returns the expression of the loop over
the shadow of the region that `find` selects, and the state as it was. -/
theorem read_memory_eq (rt : Runtime) (addr length : Nat) (little_endian : Bool)
    (region : MemoryRegion) (hs : StrictlySeparated rt.g_memory_regions) (hl : length ≠ 0)
    (hf : find rt.g_memory_regions addr = some region)
    (hle : (addr + length) % 2 ^ 64 ≤ region.end_) :
    _sym_read_memory rt addr length little_endian =
      .ok (read_memory_loop (fun i => region.shadow (addr - region.start + i)) little_endian
        (length - 1), rt) := by
  have hinv := assert_of_separated rt hs
  simp only [_sym_read_memory, hinv, Bool.true_eq_false, if_false, if_neg hl, hf, if_pos hle]

theorem read_memory_zero_length (rt : Runtime) (addr : Nat) (little_endian : Bool)
    (hs : StrictlySeparated rt.g_memory_regions) :
    _sym_read_memory rt addr 0 little_endian = .error .zero_length_query := by
  have hinv := assert_of_separated rt hs
  simp only [_sym_read_memory, hinv, Bool.true_eq_false, if_false, if_true]

/-- A read fails when `find` selects nothing, or selects a region that ends
before `addr + length`. -/
theorem read_memory_unknown (rt : Runtime) (addr length : Nat) (little_endian : Bool)
    (hs : StrictlySeparated rt.g_memory_regions) (hl : length ≠ 0)
    (hf : ∀ region, find rt.g_memory_regions addr = some region →
      region.end_ < (addr + length) % 2 ^ 64) :
    _sym_read_memory rt addr length little_endian = .error .unknown_memory_region := by
  have hinv := assert_of_separated rt hs
  simp only [_sym_read_memory, hinv, Bool.true_eq_false, if_false, if_neg hl]
  cases hfd : find rt.g_memory_regions addr with
  | none => rfl
  | some region =>
    have h := hf region hfd
    have h2 : ¬ (addr + length) % 2 ^ 64 ≤ region.end_ := Nat.not_le.2 h
    simp only [if_neg h2]

/-! ## C3 -/

/-- C3: for every reachable registry, every `addr`, shadow array and
`length >= 1` with `addr + length` not wrapping, and every address `a` with
`addr <= a < addr + length`: `_sym_register_memory(addr, shadow, length)`
succeeds, and immediately afterwards `_sym_read_memory(a, 1, e)` succeeds for
either endianness flag and returns exactly `shadow[a - addr]`. -/
theorem C3_read_back_registered_byte (rt : Runtime) (addr : Nat) (shadow : Nat → Z3_ast)
    (length a : Nat) (little_endian : Bool)
    (hr : Reachable rt.g_memory_regions) (hl : 1 ≤ length) (hw : addr + length < 2 ^ 64)
    (ha : addr ≤ a) (ha2 : a < addr + length) :
    ∃ rt1, _sym_register_memory rt addr shadow length = .ok rt1 ∧
      _sym_read_memory rt1 a 1 little_endian = .ok (shadow (a - addr), rt1) := by
  have hs := hr.separated
  refine ⟨_, register_memory_eq rt addr shadow length hs hw, ?_⟩
  have hs1 := separated_insert_between rt.g_memory_regions addr length shadow hs
  have hf := find_append_cons
    (rt.g_memory_regions.take (lower_bound rt.g_memory_regions addr))
    (rt.g_memory_regions.drop (upper_bound rt.g_memory_regions (addr + length)))
    ⟨addr, addr + length, shadow⟩ a
    (fun x hx => Nat.lt_of_lt_of_le (take_lower_bound_lt _ _ x hx) ha) ha (Nat.le_of_lt ha2)
  have hle : (a + 1) % 2 ^ 64 ≤ addr + length := by omega
  rw [read_memory_eq _ a 1 little_endian ⟨addr, addr + length, shadow⟩ hs1 (by decide) hf hle]
  simp [read_memory_loop]

theorem two_region_runtime_reachable : Reachable two_region_runtime.g_memory_regions :=
  ⟨zero_initialized Z3_no_simplifier, two_region_runtime,
    [⟨16, numeral_shadow 0, 16⟩, ⟨48, numeral_shadow 16, 16⟩], rfl, by simp, rfl, rfl⟩

theorem top_region_runtime_reachable : Reachable top_region_runtime.g_memory_regions :=
  ⟨zero_initialized Z3_no_simplifier, top_region_runtime,
    [⟨2 ^ 64 - 2, numeral_shadow 0, 1⟩], rfl, by simp, rfl, rfl⟩

/-- The byte at address 26 of a region registered over `[24, 28)` in a
registry that holds `[16, 32)` and `[48, 64)`. -/
theorem C3_read_back_registered_byte_witness :
    Reachable two_region_runtime.g_memory_regions ∧ 1 ≤ 4 ∧ 24 + 4 < 2 ^ 64 ∧ 24 ≤ 26 ∧
    26 < 24 + 4 ∧
    ∃ rt1, _sym_register_memory two_region_runtime 24 (numeral_shadow 32) 4 = .ok rt1 ∧
      _sym_read_memory rt1 26 1 true = .ok (numeral_shadow 32 (26 - 24), rt1) :=
  ⟨two_region_runtime_reachable, by decide, by decide, by decide, by decide,
    C3_read_back_registered_byte two_region_runtime 24 (numeral_shadow 32) 4 26 true
      two_region_runtime_reachable (by decide) (by decide) (by decide) (by decide)⟩

/-! ## C4 -/

/-- C4 as stated fails where `addr + length` wraps around.  The registry holds
the single region `[2 ^ 64 - 2, 2 ^ 64 - 1)`.  No region holds the address
`2 ^ 64 - 1`, yet the read of one byte there passes both assertions (`find`
accepts `addr == end`, and `addr + length` is `0`); and the read of two bytes
at `2 ^ 64 - 2` passes although the region ends before `addr + length`. -/
theorem C4_counterexample_wrapping_read :
    Reachable top_region_runtime.g_memory_regions ∧
    (∀ r ∈ top_region_runtime.g_memory_regions, ¬ r.contains (2 ^ 64 - 1)) ∧
    _sym_read_memory top_region_runtime (2 ^ 64 - 1) 1 true =
      .ok (numeral_shadow 0 1, top_region_runtime) ∧
    (∃ r ∈ top_region_runtime.g_memory_regions,
      r.contains (2 ^ 64 - 2) ∧ r.end_ < (2 ^ 64 - 2) + 2) ∧
    _sym_read_memory top_region_runtime (2 ^ 64 - 2) 2 true =
      .ok (Z3_mk_concat (numeral_shadow 0 1) (numeral_shadow 0 0), top_region_runtime) := by
  refine ⟨top_region_runtime_reachable, ?_, rfl, ?_, rfl⟩
  · intro r hr
    simp only [top_region_runtime, List.mem_singleton] at hr
    subst hr
    simp [MemoryRegion.contains]
  · refine ⟨_, List.mem_singleton.2 rfl, ?_⟩
    simp [MemoryRegion.contains]

/-- C4 (amended): for every reachable registry, `_sym_read_memory(addr,
length, e)` fails whenever `length == 0`; and, when `addr + length` does not
wrap around, it fails whenever no registered region holds `addr` and whenever
the region that holds `addr` has `end < addr + length`. -/
theorem C4_read_fails (rt : Runtime) (addr length : Nat) (little_endian : Bool)
    (hr : Reachable rt.g_memory_regions) :
    (length = 0 → _sym_read_memory rt addr length little_endian = .error .zero_length_query) ∧
    (addr + length < 2 ^ 64 → (¬ ∃ r ∈ rt.g_memory_regions, r.contains addr) →
      ∃ f, _sym_read_memory rt addr length little_endian = .error f) ∧
    (addr + length < 2 ^ 64 →
      ∀ r ∈ rt.g_memory_regions, r.contains addr → r.end_ < addr + length →
        ∃ f, _sym_read_memory rt addr length little_endian = .error f) := by
  have hs := hr.separated
  refine ⟨?_, ?_, ?_⟩
  · intro h
    subst h
    exact read_memory_zero_length rt addr little_endian hs
  · intro hw hno
    by_cases hl : length = 0
    · subst hl
      exact ⟨_, read_memory_zero_length rt addr little_endian hs⟩
    · refine ⟨_, read_memory_unknown rt addr length little_endian hs hl ?_⟩
      intro region hf
      obtain ⟨hm, h1, h2⟩ := find_some _ _ _ hf
      have h3 : ¬ addr < region.end_ := fun h => hno ⟨region, hm, h1, h⟩
      rw [Nat.mod_eq_of_lt hw]
      omega
  · intro hw r hm hc hlt
    by_cases hl : length = 0
    · subst hl
      exact ⟨_, read_memory_zero_length rt addr little_endian hs⟩
    · refine ⟨_, read_memory_unknown rt addr length little_endian hs hl ?_⟩
      intro region hf
      rw [find_of_contains _ hs r hm addr hc] at hf
      cases hf
      rw [Nat.mod_eq_of_lt hw]
      exact hlt

/-- In the registry with `[16, 32)` and `[48, 64)`: a read of no byte, a read
at the unregistered address 40, and a read of four bytes at address 30 of the
region `[16, 32)`; each premise of C4 holds at its input and the read fails. -/
theorem C4_read_fails_witness :
    Reachable two_region_runtime.g_memory_regions ∧
    (40 + 1 < 2 ^ 64 ∧ ¬ ∃ r ∈ two_region_runtime.g_memory_regions, r.contains 40) ∧
    (30 + 4 < 2 ^ 64 ∧
      ∃ r ∈ two_region_runtime.g_memory_regions, r.contains 30 ∧ r.end_ < 30 + 4) ∧
    _sym_read_memory two_region_runtime 40 0 false = .error .zero_length_query ∧
    (∃ f, _sym_read_memory two_region_runtime 40 1 false = .error f) ∧
    (∃ f, _sym_read_memory two_region_runtime 30 4 true = .error f) := by
  have h40 : ¬ ∃ r ∈ two_region_runtime.g_memory_regions, r.contains 40 := by
    simp [two_region_runtime, MemoryRegion.contains]
  have hm : (⟨16, 32, numeral_shadow 0⟩ : MemoryRegion) ∈ two_region_runtime.g_memory_regions :=
    List.mem_cons_self _ _
  have hc : (⟨16, 32, numeral_shadow 0⟩ : MemoryRegion).contains 30 := by
    simp [MemoryRegion.contains]
  exact ⟨two_region_runtime_reachable, ⟨by decide, h40⟩,
    ⟨by decide, _, hm, hc, by decide⟩,
    (C4_read_fails two_region_runtime 40 0 false two_region_runtime_reachable).1 rfl,
    (C4_read_fails two_region_runtime 40 1 false two_region_runtime_reachable).2.1
      (by decide) h40,
    (C4_read_fails two_region_runtime 30 4 true two_region_runtime_reachable).2.2
      (by decide) _ hm hc (by decide)⟩

/-! ## The value of a multi-byte read -/

theorem Z3_eval_concat (σ : Z3_assignment) (x y : Z3_ast) (sx vx sy vy : Nat)
    (hx : Z3_eval σ x = some (.bv sx vx)) (hy : Z3_eval σ y = some (.bv sy vy)) :
    Z3_eval σ (Z3_mk_concat x y) = some (.bv (sx + sy) (vx * 2 ^ sy + vy)) := by
  simp [Z3_mk_concat, Z3_eval, hx, hy, Z3_eval_app2]

/-- The value of the expression that the loop of `_sym_read_memory` builds
from `k + 1` bytes. -/
theorem read_memory_loop_eval (σ : Z3_assignment) (s : Nat → Z3_ast) (b : Nat → Nat)
    (little_endian : Bool) (k : Nat)
    (hb : ∀ i, i ≤ k → Z3_eval σ (s i) = some (.bv 8 (b i))) :
    Z3_eval σ (read_memory_loop s little_endian k) =
      some (.bv (8 * (k + 1))
        (if little_endian then ∑ i in Finset.range (k + 1), b i * 256 ^ i
         else ∑ i in Finset.range (k + 1), b i * 256 ^ (k - i))) := by
  induction k with
  | zero =>
    have h0 := hb 0 (Nat.le_refl 0)
    cases little_endian <;> simp [read_memory_loop, h0]
  | succ k ih =>
    have hk := ih (fun i hi => hb i (Nat.le_succ_of_le hi))
    have hlast := hb (k + 1) (Nat.le_refl _)
    cases little_endian with
    | true =>
      simp only [if_true] at hk ⊢
      simp only [read_memory_loop, if_true]
      rw [Z3_eval_concat σ _ _ _ _ _ _ hlast hk, Finset.sum_range_succ _ (k + 1)]
      have hp : (2 : Nat) ^ (8 * (k + 1)) = 256 ^ (k + 1) := by
        rw [pow_mul]
        norm_num
      rw [hp]
      congr 2
      · omega
      · omega
    | false =>
      simp only [Bool.false_eq_true, if_false] at hk ⊢
      simp only [read_memory_loop, Bool.false_eq_true, if_false]
      rw [Z3_eval_concat σ _ _ _ _ _ _ hk hlast, Finset.sum_range_succ _ (k + 1)]
      have hsum : ∑ i in Finset.range (k + 1), b i * 256 ^ (k + 1 - i) =
          (∑ i in Finset.range (k + 1), b i * 256 ^ (k - i)) * 2 ^ 8 := by
        rw [Finset.sum_mul]
        refine Finset.sum_congr rfl (fun i hi => ?_)
        have hi2 : i ≤ k := Nat.lt_succ_iff.1 (Finset.mem_range.1 hi)
        have he : k + 1 - i = (k - i) + 1 := by omega
        rw [he, pow_succ, Nat.mul_assoc]
        norm_num
      rw [hsum]
      simp only [Nat.sub_self, pow_zero, Nat.mul_one]
      congr 2

/-- The value of a successful read of `n` bytes with values `b 0, ..., b (n - 1)`. -/
theorem read_memory_value (σ : Z3_assignment) (rt rt1 : Runtime) (addr n : Nat)
    (little_endian : Bool) (region : MemoryRegion) (b : Nat → Nat) (expr : Z3_ast)
    (hfind : find rt.g_memory_regions addr = some region)
    (hb : ∀ i, i < n →
      Z3_eval σ (region.shadow (addr - region.start + i)) = some (.bv 8 (b i)))
    (hread : _sym_read_memory rt addr n little_endian = .ok (expr, rt1)) :
    Z3_eval σ expr =
      some (.bv (8 * n)
        (if little_endian then ∑ i in Finset.range n, b i * 256 ^ i
         else ∑ i in Finset.range n, b i * 256 ^ (n - 1 - i))) := by
  unfold _sym_read_memory at hread
  split at hread
  · cases hread
  · split at hread
    · cases hread
    · rename_i hn
      rw [hfind] at hread
      simp only at hread
      split at hread
      · cases hread
        obtain ⟨m, rfl⟩ : ∃ m, n = m + 1 := ⟨n - 1, by omega⟩
        exact read_memory_loop_eval σ _ b little_endian m
          (fun i hi => hb i (Nat.lt_succ_of_le hi))
      · cases hread

/-! ## C5 -/

/-- C5: for every successful `_sym_read_memory(addr, n, e)` over the region
that the lookup selects, whose shadow entries at the offsets `off, ..., off +
n - 1` (`off = addr - start`) are 8-bit expressions with the values `b 0, ...,
b (n - 1)` under the assignment `σ`, the result has `8 * n` bits and the value
`∑ b i * 256 ^ i` when `e` is little-endian, `∑ b i * 256 ^ (n - 1 - i)` when
`e` is big-endian.  Hence a successful read with the other endianness of `n`
bytes whose values are the reversed sequence has the same value. -/
theorem C5_read_memory_value_by_endianness (σ : Z3_assignment) (rt rt1 : Runtime)
    (addr n : Nat) (little_endian : Bool) (region : MemoryRegion) (b : Nat → Nat)
    (expr : Z3_ast)
    (hfind : find rt.g_memory_regions addr = some region)
    (hb : ∀ i, i < n →
      Z3_eval σ (region.shadow (addr - region.start + i)) = some (.bv 8 (b i)))
    (hread : _sym_read_memory rt addr n little_endian = .ok (expr, rt1)) :
    Z3_eval σ expr =
      some (.bv (8 * n)
        (if little_endian then ∑ i in Finset.range n, b i * 256 ^ i
         else ∑ i in Finset.range n, b i * 256 ^ (n - 1 - i))) ∧
    ∀ (rt2 rt3 : Runtime) (addr2 : Nat) (region2 : MemoryRegion) (expr2 : Z3_ast),
      find rt2.g_memory_regions addr2 = some region2 →
      (∀ i, i < n →
        Z3_eval σ (region2.shadow (addr2 - region2.start + i)) = some (.bv 8 (b (n - 1 - i)))) →
      _sym_read_memory rt2 addr2 n (!little_endian) = .ok (expr2, rt3) →
      Z3_eval σ expr2 = Z3_eval σ expr := by
  have h1 := read_memory_value σ rt rt1 addr n little_endian region b expr hfind hb hread
  refine ⟨h1, ?_⟩
  intro rt2 rt3 addr2 region2 expr2 hfind2 hb2 hread2
  have h2 := read_memory_value σ rt2 rt3 addr2 n (!little_endian) region2
    (fun i => b (n - 1 - i)) expr2 hfind2 hb2 hread2
  rw [h1, h2]
  cases little_endian with
  | true =>
    simp only [Bool.not_true, Bool.false_eq_true, if_false, if_true]
    rw [Finset.sum_range_reflect (fun j => b j * 256 ^ j) n]
  | false =>
    simp only [Bool.not_false, Bool.false_eq_true, if_false, if_true]
    rw [← Finset.sum_range_reflect (fun j => b j * 256 ^ (n - 1 - j)) n]
    congr 2
    refine Finset.sum_congr rfl (fun i hi => ?_)
    have hi2 : i < n := Finset.mem_range.1 hi
    have he : n - 1 - (n - 1 - i) = i := by omega
    simp only [he]

/-- The little-endian read of the bytes 2, 3 at address 18 of the region
`[16, 32)`, and the big-endian read of the bytes 3, 2 of another registry:
both have the 16-bit value `2 + 3 * 256`. -/
theorem C5_read_memory_value_by_endianness_witness :
    find two_region_runtime.g_memory_regions 18 = some ⟨16, 32, numeral_shadow 0⟩ ∧
    (∀ i, i < 2 → Z3_eval (fun _ _ => 0) (numeral_shadow 0 (18 - 16 + i)) =
      some (.bv 8 (2 + i))) ∧
    _sym_read_memory two_region_runtime 18 2 true =
      .ok (Z3_mk_concat (numeral_shadow 0 3) (numeral_shadow 0 2), two_region_runtime) ∧
    Z3_eval (fun _ _ => 0) (Z3_mk_concat (numeral_shadow 0 3) (numeral_shadow 0 2)) =
      some (.bv 16 770) ∧
    _sym_read_memory descending_region_runtime 18 2 false =
      .ok (Z3_mk_concat (Z3_mk_int 3 (Z3_mk_bv_sort 8)) (Z3_mk_int 2 (Z3_mk_bv_sort 8)),
        descending_region_runtime) ∧
    Z3_eval (fun _ _ => 0)
        (Z3_mk_concat (Z3_mk_int 3 (Z3_mk_bv_sort 8)) (Z3_mk_int 2 (Z3_mk_bv_sort 8))) =
      Z3_eval (fun _ _ => 0) (Z3_mk_concat (numeral_shadow 0 3) (numeral_shadow 0 2)) := by
  have hb : ∀ i, i < 2 → Z3_eval (fun _ _ => 0) (numeral_shadow 0 (18 - 16 + i)) =
      some (.bv 8 (2 + i)) := by
    intro i hi
    interval_cases i <;> rfl
  have hb2 : ∀ i, i < 2 →
      Z3_eval (fun _ _ => 0)
        ((⟨16, 32, fun i => Z3_mk_int ((5 - i : Nat) : Int) (Z3_mk_bv_sort 8)⟩ :
          MemoryRegion).shadow (18 - 16 + i)) = some (.bv 8 (2 + (2 - 1 - i))) := by
    intro i hi
    interval_cases i <;> rfl
  have h := C5_read_memory_value_by_endianness (fun _ _ => 0) two_region_runtime
    two_region_runtime 18 2 true ⟨16, 32, numeral_shadow 0⟩ (fun i => 2 + i)
    (Z3_mk_concat (numeral_shadow 0 3) (numeral_shadow 0 2)) rfl hb rfl
  exact ⟨rfl, hb, rfl, h.1, rfl,
    h.2 descending_region_runtime descending_region_runtime 18 _ _ rfl hb2 rfl⟩

/-! ## Path constraints -/

theorem Z3_solver_pop_push_assert (s : Z3_solver) (a : Z3_ast) :
    Z3_solver_pop (Z3_solver_assert (Z3_solver_push s) a) = s := by
  cases s with
  | mk assertions scopes =>
    simp [Z3_solver_pop, Z3_solver_assert, Z3_solver_push]

/-- The general path: when the final check reports `Z3_L_TRUE` the call
returns the taken side, and the solver is the solver before the call with the
taken side asserted; otherwise the call fails. -/
theorem push_path_constraint_general_eq (rt : Runtime) (k : Z3_ast) (taken : Int) :
    push_path_constraint_general rt k taken =
      if rt.g_context.check (rt.g_solver.assertions ++
          [if taken ≠ 0 then k else Z3_simplify rt.g_context (Z3_mk_not k)]) = .Z3_L_TRUE then
        .ok (if taken ≠ 0 then k else Z3_simplify rt.g_context (Z3_mk_not k),
          { rt with
            g_solver := Z3_solver_assert rt.g_solver
              (if taken ≠ 0 then k else Z3_simplify rt.g_context (Z3_mk_not k))
            stdout := rt.stdout ++
              [.trying_to_solve (rt.g_solver.assertions ++
                [if taken ≠ 0 then Z3_simplify rt.g_context (Z3_mk_not k) else k]),
               if rt.g_context.check (rt.g_solver.assertions ++
                  [if taken ≠ 0 then Z3_simplify rt.g_context (Z3_mk_not k) else k]) = .Z3_L_TRUE
               then .found_diverging_input (rt.g_solver.assertions ++
                  [if taken ≠ 0 then Z3_simplify rt.g_context (Z3_mk_not k) else k])
               else .cant_find_diverging_input] })
      else .error .infeasible_path_constraint := by
  by_cases ht : taken = 0
  · by_cases hp : rt.g_context.check (rt.g_solver.assertions ++ [k]) = .Z3_L_TRUE
    · simp [push_path_constraint_general, printf, Z3_solver_check, ht, hp, Z3_solver_pop,
        Z3_solver_assert, Z3_solver_push]
    · simp [push_path_constraint_general, printf, Z3_solver_check, ht, hp, Z3_solver_pop,
        Z3_solver_assert, Z3_solver_push]
  · by_cases hp : rt.g_context.check
        (rt.g_solver.assertions ++ [Z3_simplify rt.g_context (Z3_mk_not k)]) = .Z3_L_TRUE
    · simp [push_path_constraint_general, printf, Z3_solver_check, ht, hp, Z3_solver_pop,
        Z3_solver_assert, Z3_solver_push]
    · simp [push_path_constraint_general, printf, Z3_solver_check, ht, hp, Z3_solver_pop,
        Z3_solver_assert, Z3_solver_push]

/-- The two literal cases of `_sym_push_path_constraint`. -/
theorem push_path_constraint_literal (rt : Runtime) (c : Z3_ast) (taken : Int) :
    (Z3_simplify rt.g_context c = Z3_mk_false → taken ≠ 0 →
      _sym_push_path_constraint rt c taken = .error .impossible_branch) ∧
    (Z3_simplify rt.g_context c = Z3_mk_true → taken = 0 →
      _sym_push_path_constraint rt c taken = .error .impossible_branch) ∧
    (Z3_simplify rt.g_context c = Z3_mk_true → taken ≠ 0 →
      _sym_push_path_constraint rt c taken = .ok (Z3_mk_true, rt)) ∧
    (Z3_simplify rt.g_context c = Z3_mk_false → taken = 0 →
      _sym_push_path_constraint rt c taken = .ok (Z3_mk_not Z3_mk_false, rt)) := by
  have hne : Z3_mk_false ≠ Z3_mk_true := by decide
  refine ⟨?_, ?_, ?_, ?_⟩
  · intro hc ht
    simp [_sym_push_path_constraint, hc, hne, ht]
  · intro hc ht
    simp [_sym_push_path_constraint, hc, ht]
  · intro hc ht
    simp [_sym_push_path_constraint, hc, ht]
  · intro hc ht
    simp [_sym_push_path_constraint, hc, hne, ht]

/-! ## C6 -/

/-- C6: for every condition `c` and every state, if `simplify(c)` is the
literal `false` and `taken` is non-zero, `_sym_push_path_constraint(c, taken)`
fails; if `simplify(c)` is the literal `true` and `taken` is zero, it fails;
in the two agreeing cases (`true` and taken, `false` and not taken) it returns
normally, and the state is as before. -/
theorem C6_impossible_branch_is_fatal (rt : Runtime) (c : Z3_ast) (taken : Int) :
    (Z3_simplify rt.g_context c = Z3_mk_false → taken ≠ 0 →
      _sym_push_path_constraint rt c taken = .error .impossible_branch) ∧
    (Z3_simplify rt.g_context c = Z3_mk_true → taken = 0 →
      _sym_push_path_constraint rt c taken = .error .impossible_branch) ∧
    (Z3_simplify rt.g_context c = Z3_mk_true → taken ≠ 0 →
      _sym_push_path_constraint rt c taken = .ok (Z3_mk_true, rt)) ∧
    (Z3_simplify rt.g_context c = Z3_mk_false → taken = 0 →
      _sym_push_path_constraint rt c taken = .ok (Z3_mk_not Z3_mk_false, rt)) :=
  push_path_constraint_literal rt c taken

/-- The four cases of C6 with a simplifier that leaves the literals as they
are. -/
theorem C6_impossible_branch_is_fatal_witness :
    Z3_simplify (zero_initialized Z3_no_simplifier).g_context Z3_mk_false = Z3_mk_false ∧
    Z3_simplify (zero_initialized Z3_no_simplifier).g_context Z3_mk_true = Z3_mk_true ∧
    _sym_push_path_constraint (zero_initialized Z3_no_simplifier) Z3_mk_false 1 =
      .error .impossible_branch ∧
    _sym_push_path_constraint (zero_initialized Z3_no_simplifier) Z3_mk_true 0 =
      .error .impossible_branch ∧
    _sym_push_path_constraint (zero_initialized Z3_no_simplifier) Z3_mk_true 1 =
      .ok (Z3_mk_true, zero_initialized Z3_no_simplifier) ∧
    _sym_push_path_constraint (zero_initialized Z3_no_simplifier) Z3_mk_false 0 =
      .ok (Z3_mk_not Z3_mk_false, zero_initialized Z3_no_simplifier) :=
  ⟨rfl, rfl,
    (C6_impossible_branch_is_fatal (zero_initialized Z3_no_simplifier) Z3_mk_false 1).1 rfl
      (by decide),
    (C6_impossible_branch_is_fatal (zero_initialized Z3_no_simplifier) Z3_mk_true 0).2.1 rfl rfl,
    (C6_impossible_branch_is_fatal (zero_initialized Z3_no_simplifier) Z3_mk_true 1).2.2.1 rfl
      (by decide),
    (C6_impossible_branch_is_fatal (zero_initialized Z3_no_simplifier) Z3_mk_false 0).2.2.2 rfl
      rfl⟩

/-! ## C7 -/

/-- C7: for every call `_sym_push_path_constraint(c, taken)` in which
`simplify(c)` is neither the literal `true` nor the literal `false` and which
returns normally, whatever the probe found: the open scopes of the solver are
those before the call, its assertions are the previous ones followed by
exactly one new assertion, which is `simplify(c)` when taken and
`simplify(not simplify(c))` when not taken; the assertion of the untaken side
made for the probe is gone (the untaken side is among the assertions only if
it was there before the call or is the taken side itself); and the returned
expression is the asserted taken side. -/
theorem C7_general_path_commits_taken_side (rt : Runtime) (c : Z3_ast) (taken : Int)
    (r : Z3_ast × Runtime)
    (htrue : Z3_simplify rt.g_context c ≠ Z3_mk_true)
    (hfalse : Z3_simplify rt.g_context c ≠ Z3_mk_false)
    (hret : _sym_push_path_constraint rt c taken = .ok r) :
    r.2.g_solver.scopes = rt.g_solver.scopes ∧
    r.2.g_solver.scopes.length = rt.g_solver.scopes.length ∧
    r.2.g_solver.assertions = rt.g_solver.assertions ++
      [if taken ≠ 0 then Z3_simplify rt.g_context c
       else Z3_simplify rt.g_context (Z3_mk_not (Z3_simplify rt.g_context c))] ∧
    r.1 = (if taken ≠ 0 then Z3_simplify rt.g_context c
       else Z3_simplify rt.g_context (Z3_mk_not (Z3_simplify rt.g_context c))) ∧
    ((if taken ≠ 0 then Z3_simplify rt.g_context (Z3_mk_not (Z3_simplify rt.g_context c))
        else Z3_simplify rt.g_context c) ∉ rt.g_solver.assertions →
      (if taken ≠ 0 then Z3_simplify rt.g_context (Z3_mk_not (Z3_simplify rt.g_context c))
        else Z3_simplify rt.g_context c) ≠
        (if taken ≠ 0 then Z3_simplify rt.g_context c
          else Z3_simplify rt.g_context (Z3_mk_not (Z3_simplify rt.g_context c))) →
      (if taken ≠ 0 then Z3_simplify rt.g_context (Z3_mk_not (Z3_simplify rt.g_context c))
        else Z3_simplify rt.g_context c) ∉ r.2.g_solver.assertions) := by
  simp only [_sym_push_path_constraint, if_neg htrue, if_neg hfalse,
    push_path_constraint_general_eq] at hret
  by_cases hchk : rt.g_context.check (rt.g_solver.assertions ++
      [if taken ≠ 0 then Z3_simplify rt.g_context c
       else Z3_simplify rt.g_context (Z3_mk_not (Z3_simplify rt.g_context c))]) = .Z3_L_TRUE
  · rw [if_pos hchk] at hret
    cases hret
    refine ⟨rfl, rfl, rfl, rfl, ?_⟩
    intro h1 h2
    simp only [Z3_solver_assert, List.mem_append, List.mem_singleton, not_or]
    exact ⟨h1, h2⟩
  · rw [if_neg hchk] at hret
    cases hret

/-- A call on the Boolean constant `x`, taken, with a simplifier that changes
nothing and a check that reports every set satisfiable. -/
theorem C7_general_path_commits_taken_side_witness :
    Z3_simplify (zero_initialized Z3_no_simplifier).g_context (Z3_mk_const "x" .bool) ≠
      Z3_mk_true ∧
    Z3_simplify (zero_initialized Z3_no_simplifier).g_context (Z3_mk_const "x" .bool) ≠
      Z3_mk_false ∧
    ∃ r, _sym_push_path_constraint (zero_initialized Z3_no_simplifier)
        (Z3_mk_const "x" .bool) 1 = .ok r ∧
      r.2.g_solver.scopes = [] ∧
      r.2.g_solver.assertions = [Z3_mk_const "x" .bool] ∧
      r.1 = Z3_mk_const "x" .bool ∧
      Z3_mk_not (Z3_mk_const "x" .bool) ∉ r.2.g_solver.assertions := by
  have h1 : Z3_simplify (zero_initialized Z3_no_simplifier).g_context (Z3_mk_const "x" .bool) ≠
      Z3_mk_true := by decide
  have h2 : Z3_simplify (zero_initialized Z3_no_simplifier).g_context (Z3_mk_const "x" .bool) ≠
      Z3_mk_false := by decide
  have h := C7_general_path_commits_taken_side (zero_initialized Z3_no_simplifier)
    (Z3_mk_const "x" .bool) 1 _ h1 h2 rfl
  exact ⟨h1, h2, _, rfl, h.1, h.2.2.1, h.2.2.2.1, h.2.2.2.2 (by decide) (by decide)⟩

/-! ## C8 -/

theorem Z3_models_append (σ : Z3_assignment) (as : List Z3_ast) (a : Z3_ast)
    (h : Z3_models σ as) (ha : Z3_eval σ a = some (.bool true)) : Z3_models σ (as ++ [a]) := by
  intro x hx
  rw [List.mem_append, List.mem_singleton] at hx
  rcases hx with hx | rfl
  · exact h x hx
  · exact ha

/-- One call whose `taken` flag is the truth value of the condition under a
model `σ` of the assertions: the call returns, the context is the same, and
`σ` is a model of the assertions afterwards. -/
theorem push_path_constraint_models (σ : Z3_assignment) (rt : Runtime) (c : Z3_ast)
    (taken : Int) (hsimp : SemanticsPreserving rt.g_context)
    (hcomp : CompleteOracle rt.g_context) (hm : Z3_models σ rt.g_solver.assertions)
    (hc : ∃ b, Z3_eval σ c = some (.bool b) ∧ (taken ≠ 0 ↔ b = true)) :
    ∃ r, _sym_push_path_constraint rt c taken = .ok r ∧ r.2.g_context = rt.g_context ∧
      Z3_models σ r.2.g_solver.assertions := by
  obtain ⟨b, hb, htb⟩ := hc
  have hk : Z3_eval σ (Z3_simplify rt.g_context c) = some (.bool b) := by
    rw [Z3_simplify, hsimp σ c, hb]
  by_cases htrue : Z3_simplify rt.g_context c = Z3_mk_true
  · have hbt : b = true := by
      rw [htrue] at hk
      simp only [Z3_mk_true, Z3_eval, Option.some.injEq, Z3_value.bool.injEq] at hk
      exact hk.symm
    have ht : taken ≠ 0 := htb.2 hbt
    exact ⟨_, ((push_path_constraint_literal rt c taken).2.2.1 htrue ht), rfl, hm⟩
  · by_cases hfalse : Z3_simplify rt.g_context c = Z3_mk_false
    · have hbf : b = false := by
        rw [hfalse] at hk
        simp only [Z3_mk_false, Z3_eval, Option.some.injEq, Z3_value.bool.injEq] at hk
        exact hk.symm
      have ht : taken = 0 := by
        by_contra h
        have := htb.1 h
        rw [hbf] at this
        cases this
      exact ⟨_, ((push_path_constraint_literal rt c taken).2.2.2 hfalse ht), rfl, hm⟩
    · have hnew : Z3_eval σ (if taken ≠ 0 then Z3_simplify rt.g_context c
          else Z3_simplify rt.g_context (Z3_mk_not (Z3_simplify rt.g_context c))) =
          some (.bool true) := by
        by_cases ht : taken ≠ 0
        · rw [if_pos ht, hk, htb.1 ht]
        · have hbf : b = false := by
            cases b with
            | false => rfl
            | true => exact absurd (htb.2 rfl) ht
          rw [if_neg ht, Z3_simplify, hsimp σ, Z3_mk_not]
          simp only [Z3_eval, hk, hbf, Bool.not_false]
      have hm2 := Z3_models_append σ _ _ hm hnew
      have hchk := hcomp _ ⟨σ, hm2⟩
      have hrun : _sym_push_path_constraint rt c taken =
          push_path_constraint_general rt (Z3_simplify rt.g_context c) taken := by
        simp only [_sym_push_path_constraint, if_neg htrue, if_neg hfalse]
      rw [push_path_constraint_general_eq, if_pos hchk] at hrun
      exact ⟨_, hrun, rfl, hm2⟩

/-- A sequence of calls whose `taken` flags are the truth values of the
conditions under `σ`, from a state whose assertions `σ` satisfies. -/
theorem push_all_models (σ : Z3_assignment) (calls : List (Z3_ast × Int)) (rt : Runtime)
    (hsimp : SemanticsPreserving rt.g_context) (hcomp : CompleteOracle rt.g_context)
    (hm : Z3_models σ rt.g_solver.assertions)
    (hc : ∀ c ∈ calls, ∃ b, Z3_eval σ c.1 = some (.bool b) ∧ (c.2 ≠ 0 ↔ b = true)) :
    ∃ rt1, push_all rt calls = .ok rt1 ∧ Z3_models σ rt1.g_solver.assertions ∧
      rt1.g_context = rt.g_context := by
  induction calls generalizing rt with
  | nil => exact ⟨rt, rfl, hm, rfl⟩
  | cons c cs ih =>
    obtain ⟨r, hr, hctx, hm1⟩ := push_path_constraint_models σ rt c.1 c.2 hsimp hcomp hm
      (hc c (List.mem_cons_self _ _))
    obtain ⟨rt1, h1, h2, h3⟩ := ih r.2 (hctx ▸ hsimp) (hctx ▸ hcomp) hm1
      (fun x hx => hc x (List.mem_cons_of_mem _ hx))
    refine ⟨rt1, ?_, h2, h3.trans hctx⟩
    simp only [push_all, hr]
    exact h1

/-- C8: assume a semantics-preserving simplifier and a satisfiability check
that is complete (of a sound and complete oracle only completeness is used),
and fix one assignment `σ`.  For every finite sequence of calls
`_sym_push_path_constraint(c_k, taken_k)` from the empty assumption set in
which each `taken_k` is the truth value of `c_k` under `σ`, no call fails, and
after every call (after every prefix of the sequence) `σ` is a model of the
assertions of the solver, which the check reports satisfiable. -/
theorem C8_consistent_path_stays_satisfiable (σ : Z3_assignment) (rt0 : Runtime)
    (calls : List (Z3_ast × Int))
    (hsimp : SemanticsPreserving rt0.g_context) (hcomp : CompleteOracle rt0.g_context)
    (h0 : rt0.g_solver.assertions = [])
    (hc : ∀ c ∈ calls, ∃ b, Z3_eval σ c.1 = some (.bool b) ∧ (c.2 ≠ 0 ↔ b = true)) :
    ∀ n, ∃ rt, push_all rt0 (calls.take n) = .ok rt ∧
      Z3_models σ rt.g_solver.assertions ∧
      Z3_solver_check rt.g_context rt.g_solver = .Z3_L_TRUE := by
  intro n
  have hm0 : Z3_models σ rt0.g_solver.assertions := by
    rw [h0]
    intro a ha
    cases ha
  obtain ⟨rt, h1, h2, h3⟩ := push_all_models σ (calls.take n) rt0 hsimp hcomp hm0
    (fun c hcm => hc c (List.mem_of_mem_take hcm))
  refine ⟨rt, h1, h2, ?_⟩
  rw [Z3_solver_check, h3]
  exact hcomp _ ⟨σ, h2⟩

/-- The premises of C8 for three calls: the Boolean constant `x`, taken; the
literal `true`, taken; the negation of the constant `y`, not taken; under the
assignment that makes every constant true. -/
theorem C8_consistent_path_stays_satisfiable_witness :
    SemanticsPreserving (zero_initialized Z3_no_simplifier).g_context ∧
    CompleteOracle (zero_initialized Z3_no_simplifier).g_context ∧
    (zero_initialized Z3_no_simplifier).g_solver.assertions = [] ∧
    (∀ c ∈ [(Z3_mk_const "x" .bool, (1 : Int)), (Z3_mk_true, 7),
        (Z3_mk_not (Z3_mk_const "y" .bool), 0)],
      ∃ b, Z3_eval (fun _ _ => 1) c.1 = some (.bool b) ∧ (c.2 ≠ 0 ↔ b = true)) ∧
    ∀ n, ∃ rt, push_all (zero_initialized Z3_no_simplifier)
        ([(Z3_mk_const "x" .bool, (1 : Int)), (Z3_mk_true, 7),
          (Z3_mk_not (Z3_mk_const "y" .bool), 0)].take n) = .ok rt ∧
      Z3_models (fun _ _ => 1) rt.g_solver.assertions ∧
      Z3_solver_check rt.g_context rt.g_solver = .Z3_L_TRUE := by
  have hsimp : SemanticsPreserving (zero_initialized Z3_no_simplifier).g_context :=
    fun _ _ => rfl
  have hcomp : CompleteOracle (zero_initialized Z3_no_simplifier).g_context :=
    fun _ _ => rfl
  have hc : ∀ c ∈ [(Z3_mk_const "x" .bool, (1 : Int)), (Z3_mk_true, 7),
      (Z3_mk_not (Z3_mk_const "y" .bool), 0)],
      ∃ b, Z3_eval (fun _ _ => 1) c.1 = some (.bool b) ∧ (c.2 ≠ 0 ↔ b = true) := by
    intro c hcm
    simp only [List.mem_cons, List.mem_singleton, List.not_mem_nil, or_false] at hcm
    rcases hcm with rfl | rfl | rfl
    · exact ⟨true, rfl, by decide⟩
    · exact ⟨true, rfl, by decide⟩
    · exact ⟨false, rfl, by decide⟩
  exact ⟨hsimp, hcomp, rfl, hc,
    C8_consistent_path_stays_satisfiable (fun _ _ => 1) (zero_initialized Z3_no_simplifier) _
      hsimp hcomp rfl hc⟩

/-! ## Values are in range -/

theorem Z3_unsigned_lt (sz : Nat) (i : Int) : Z3_unsigned sz i < 2 ^ sz := by
  unfold Z3_unsigned
  have hpos : (0 : Int) < ((2 ^ sz : Nat) : Int) := by positivity
  have h1 := Int.emod_lt_of_pos i hpos
  have h2 := Int.emod_nonneg i (ne_of_gt hpos)
  omega

theorem Z3_eval_app2_wf (k : Z3_decl_kind) (va vb v : Z3_value) (ha : va.wf) (hb : vb.wf)
    (h : Z3_eval_app2 k va vb = some v) : v.wf := by
  cases va with
  | bool a =>
    cases vb with
    | bool b =>
      cases k <;> simp [Z3_eval_app2] at h
      subst h
      trivial
    | bv sb b => cases k <;> simp [Z3_eval_app2] at h
  | bv sa a =>
    cases vb with
    | bool b => cases k <;> simp [Z3_eval_app2] at h
    | bv sb b =>
      simp only [Z3_value.wf] at ha hb
      cases k <;> simp only [Z3_eval_app2] at h
      case Z3_OP_CONCAT =>
        cases h
        show a * 2 ^ sb + b < 2 ^ (sa + sb)
        calc a * 2 ^ sb + b < a * 2 ^ sb + 2 ^ sb := by omega
          _ = (a + 1) * 2 ^ sb := by ring
          _ ≤ 2 ^ sa * 2 ^ sb := Nat.mul_le_mul_right _ ha
          _ = 2 ^ (sa + sb) := by rw [pow_add]
      case Z3_OP_BSREM =>
        split at h
        · cases h
          show (if b = 0 then a else _) < 2 ^ sa
          split
          · exact ha
          · exact Z3_unsigned_lt _ _
        · cases h
      all_goals
        split at h
        · cases h
          first
            | trivial
            | exact Nat.mod_lt _ (by positivity)
        · cases h

/-- Every bit-vector value of an expression is below `2 ^ sz`. -/
theorem Z3_eval_wf (σ : Z3_assignment) (e : Z3_ast) :
    ∀ v, Z3_eval σ e = some v → v.wf := by
  induction e with
  | null => intro v h; simp [Z3_eval] at h
  | numeral n sz =>
    intro v h
    simp only [Z3_eval] at h
    split at h
    · cases h
    · cases h
      exact Nat.mod_lt _ (by positivity)
  | const name s =>
    intro v h
    cases s with
    | bool =>
      simp only [Z3_eval] at h
      cases h
      trivial
    | bv sz =>
      simp only [Z3_eval] at h
      split at h
      · cases h
      · cases h
        exact Nat.mod_lt _ (by positivity)
  | mk_true => intro v h; simp only [Z3_eval] at h; cases h; trivial
  | mk_false => intro v h; simp only [Z3_eval] at h; cases h; trivial
  | mk_not a _ =>
    intro v h
    simp only [Z3_eval] at h
    split at h
    · cases h
      trivial
    · cases h
  | app2 k a b iha ihb =>
    intro v h
    simp only [Z3_eval] at h
    split at h
    · rename_i va vb hva hvb
      exact Z3_eval_app2_wf k va vb v (iha va hva) (ihb vb hvb) h
    · cases h
  | sign_ext i a ih =>
    intro v h
    simp only [Z3_eval] at h
    split at h
    · rename_i sz n hn
      cases h
      have hlt : n < 2 ^ sz := ih _ hn
      show (if n < 2 ^ (sz - 1) then n else n + (2 ^ i - 1) * 2 ^ sz) < 2 ^ (sz + i)
      have hpi : 1 ≤ 2 ^ i := Nat.one_le_two_pow
      have hpow : 2 ^ (sz + i) = 2 ^ sz + (2 ^ i - 1) * 2 ^ sz := by
        rw [pow_add, Nat.sub_mul, Nat.one_mul]
        have : 2 ^ sz ≤ 2 ^ i * 2 ^ sz := Nat.le_mul_of_pos_left _ (by positivity)
        rw [Nat.mul_comm (2 ^ sz) (2 ^ i)]
        omega
      split
      · rw [hpow]
        omega
      · rw [hpow]
        omega
    · cases h
  | zero_ext i a ih =>
    intro v h
    simp only [Z3_eval] at h
    split at h
    · rename_i sz n hn
      cases h
      have hlt : n < 2 ^ sz := ih _ hn
      show n < 2 ^ (sz + i)
      exact Nat.lt_of_lt_of_le hlt (Nat.pow_le_pow_right (by decide) (Nat.le_add_right _ _))
    · cases h
  | extract high low a _ =>
    intro v h
    simp only [Z3_eval] at h
    split at h
    · split at h
      · cases h
        exact Nat.mod_lt _ (by positivity)
      · cases h
    · cases h

theorem Z3_eval_bv_lt (σ : Z3_assignment) (e : Z3_ast) (sz n : Nat)
    (h : Z3_eval σ e = some (.bv sz n)) : n < 2 ^ sz :=
  Z3_eval_wf σ e _ h

/-! ## C9 -/

/-- The `high` argument of the extraction for a width that fits in `uint8_t`. -/
theorem to_unsigned_pred (w : Nat) (h1 : 1 ≤ w) (h2 : w ≤ 255) :
    to_unsigned (((w % 2 ^ 8 : Nat) : Int) - 1) = w - 1 := by
  have hw : w % 2 ^ 8 = w := Nat.mod_eq_of_lt (by omega)
  rw [hw]
  unfold to_unsigned
  have h3 : ((w : Int) - 1) % ((2 ^ 32 : Nat) : Int) = (w : Int) - 1 :=
    Int.emod_eq_of_lt (by omega) (by norm_num; omega)
  rw [h3]
  omega

/-- Truncation to the width of `x` undoes both extensions, whatever the sign
of `x`. -/
theorem trunc_ext_eval (σ : Z3_assignment) (x : Z3_ast) (w k v : Nat) (h1 : 1 ≤ w)
    (h2 : w ≤ 255) (hx : Z3_eval σ x = some (.bv w v)) :
    Z3_eval σ (_sym_build_trunc (_sym_build_zext x k) w) = Z3_eval σ x ∧
    Z3_eval σ (_sym_build_trunc (_sym_build_sext x k) w) = Z3_eval σ x := by
  have hv : v < 2 ^ w := Z3_eval_bv_lt σ x w v hx
  have hhigh := to_unsigned_pred w h1 h2
  have hcond : 0 ≤ w - 1 ∧ w - 1 < w + k % 2 ^ 8 := ⟨Nat.zero_le _, by omega⟩
  have hwidth : w - 1 - 0 + 1 = w := by omega
  constructor
  · simp only [_sym_build_trunc, _sym_build_zext, Z3_mk_extract, Z3_mk_zero_ext, hhigh,
      Z3_eval, hx, if_pos hcond, hwidth, pow_zero, Nat.div_one, Nat.mod_eq_of_lt hv]
  · simp only [_sym_build_trunc, _sym_build_sext, Z3_mk_extract, Z3_mk_sign_ext, hhigh,
      Z3_eval, hx, if_pos hcond, hwidth, pow_zero, Nat.div_one]
    split
    · rw [Nat.mod_eq_of_lt hv]
    · rw [Nat.add_mul_mod_self_right, Nat.mod_eq_of_lt hv]

/-- C9 as stated fails for a width that does not fit the `uint8_t` parameter
of `_sym_build_trunc`: `wide_one` has 256 bits and the non-negative value 1;
`bits` is then `0`, `bits - 1` becomes the `unsigned` value `2 ^ 32 - 1`, and
the extraction is no expression of Z3. -/
theorem C9_counterexample_width_256 :
    Z3_eval (fun _ _ => 0) wide_one = some (.bv 256 1) ∧ 1 ≤ 256 ∧
    0 ≤ Z3_signed 256 1 ∧
    _sym_build_trunc (_sym_build_zext wide_one 1) 256 =
      Z3_mk_extract 4294967295 0 (Z3_mk_zero_ext 1 wide_one) ∧
    Z3_eval (fun _ _ => 0) (_sym_build_trunc (_sym_build_zext wide_one 1) 256) = none ∧
    Z3_eval (fun _ _ => 0) (_sym_build_trunc (_sym_build_zext wide_one 1) 256) ≠
      Z3_eval (fun _ _ => 0) wide_one ∧
    Z3_eval (fun _ _ => 0) (_sym_build_trunc (_sym_build_sext wide_one 1) 256) ≠
      Z3_eval (fun _ _ => 0) wide_one := by
  have h1 : Z3_eval (fun _ _ => 0) wide_one = some (.bv 256 1) := rfl
  have h2 : Z3_eval (fun _ _ => 0) (_sym_build_trunc (_sym_build_zext wide_one 1) 256) = none :=
    rfl
  have h3 : Z3_eval (fun _ _ => 0) (_sym_build_trunc (_sym_build_sext wide_one 1) 256) = none :=
    rfl
  refine ⟨h1, by decide, by decide, rfl, h2, ?_, ?_⟩
  · rw [h1, h2]
    exact fun h => Option.noConfusion h
  · rw [h1, h3]
    exact fun h => Option.noConfusion h

/-- C9 (amended): for every bit-vector expression `x` of width `w` with
`1 <= w <= 255` (the widths that the `uint8_t` parameter of `_sym_build_trunc`
can carry) and every extension amount `k`:
`_sym_build_trunc(_sym_build_zext(x, k), w)` has the same value as `x` under
every assignment, and `_sym_build_trunc(_sym_build_sext(x, k), w)` has the
same value as `x` whenever `x` is non-negative as a signed `w`-bit value. -/
theorem C9_trunc_undoes_extension (σ : Z3_assignment) (x : Z3_ast) (w k v : Nat)
    (h1 : 1 ≤ w) (h2 : w ≤ 255) (hx : Z3_eval σ x = some (.bv w v)) :
    Z3_eval σ (_sym_build_trunc (_sym_build_zext x k) w) = Z3_eval σ x ∧
    (0 ≤ Z3_signed w v →
      Z3_eval σ (_sym_build_trunc (_sym_build_sext x k) w) = Z3_eval σ x) :=
  ⟨(trunc_ext_eval σ x w k v h1 h2 hx).1, fun _ => (trunc_ext_eval σ x w k v h1 h2 hx).2⟩

/-- The 8-bit constant 100, extended by 24 bits and truncated to 8 bits. -/
theorem C9_trunc_undoes_extension_witness :
    1 ≤ 8 ∧ 8 ≤ 255 ∧
    Z3_eval (fun _ _ => 0) (_sym_build_integer 100 8) = some (.bv 8 100) ∧
    0 ≤ Z3_signed 8 100 ∧
    Z3_eval (fun _ _ => 0) (_sym_build_trunc (_sym_build_zext (_sym_build_integer 100 8) 24) 8) =
      Z3_eval (fun _ _ => 0) (_sym_build_integer 100 8) ∧
    Z3_eval (fun _ _ => 0) (_sym_build_trunc (_sym_build_sext (_sym_build_integer 100 8) 24) 8) =
      Z3_eval (fun _ _ => 0) (_sym_build_integer 100 8) := by
  have hx : Z3_eval (fun _ _ => 0) (_sym_build_integer 100 8) = some (.bv 8 100) := by decide
  have hs : 0 ≤ Z3_signed 8 100 := by decide
  have h := C9_trunc_undoes_extension (fun _ _ => 0) (_sym_build_integer 100 8) 8 24 100
    (by decide) (by decide) hx
  exact ⟨by decide, by decide, hx, hs, h.1, h.2 hs⟩

/-! ## C10 -/

/-- Through the `int` parameter the low 32 bits of a value survive. -/
theorem Z3_unsigned_to_int (v bits : Nat) (h : bits ≤ 32) :
    Z3_unsigned bits (to_int v) = v % 2 ^ bits := by
  unfold Z3_unsigned to_int
  interval_cases bits <;> split <;> omega

/-- For a width of at most 32 bits `_sym_build_integer(v, bits)` is the
constant `v mod 2 ^ bits`. -/
theorem build_integer_of_le_32 (v bits : Nat) (h1 : 1 ≤ bits) (h2 : bits ≤ 32) :
    _sym_build_integer v bits = Z3_ast.numeral (v % 2 ^ bits) bits := by
  have hb : bits % 2 ^ 8 = bits := Nat.mod_eq_of_lt (by omega)
  have h0 : bits ≠ 0 := by omega
  simp only [_sym_build_integer, Z3_mk_bv_sort, Z3_mk_int, hb, if_neg h0,
    Z3_unsigned_to_int v bits h2]

/-- C10 (the code at failing inputs): `_sym_build_integer(2 ^ 32, 64)` is the
64-bit constant `0` and `_sym_build_integer(2 ^ 31, 64)` is the 64-bit
constant `2 ^ 64 - 2 ^ 31`, not `v mod 2 ^ 64`: the `uint64_t` value goes
through the `int` parameter of `Z3_mk_int`. -/
theorem C10_build_integer_narrows_to_int :
    _sym_build_integer (2 ^ 32) 64 = Z3_ast.numeral 0 64 ∧
    Z3_eval (fun _ _ => 0) (_sym_build_integer (2 ^ 32) 64) = some (.bv 64 0) ∧
    2 ^ 32 % 2 ^ 64 ≠ 0 ∧
    _sym_build_integer (2 ^ 31) 64 = Z3_ast.numeral (2 ^ 64 - 2 ^ 31) 64 ∧
    Z3_eval (fun _ _ => 0) (_sym_build_integer (2 ^ 31) 64) = some (.bv 64 (2 ^ 64 - 2 ^ 31)) ∧
    2 ^ 31 % 2 ^ 64 ≠ 2 ^ 64 - 2 ^ 31 := by
  refine ⟨by decide, by decide, by decide, by decide, by decide, by decide⟩

/-! ## C11 -/

/-- C11: for every name, concrete value `v` and bit width `bits` (a value of
`uint8_t`), `_sym_build_variable(name, v, bits)` returns `v` unchanged, and
afterwards `_sym_get_return_expression()` is the symbolic constant named
`name` of the bit-vector sort of width `bits` (for `bits >= 1` its value under
an assignment is what the assignment gives `name`, in `bits` bits); the
argument slots, the memory registry and the solver are unchanged. -/
theorem C11_build_variable_sets_return_slot (rt : Runtime) (name : String) (value bits : Nat)
    (hb : bits < 2 ^ 8) :
    (_sym_build_variable rt name value bits).1 = value ∧
    _sym_get_return_expression (_sym_build_variable rt name value bits).2 =
      (Z3_mk_const name (Z3_mk_bv_sort bits), (_sym_build_variable rt name value bits).2) ∧
    (∀ σ : Z3_assignment, 1 ≤ bits →
      Z3_eval σ (_sym_get_return_expression (_sym_build_variable rt name value bits).2).1 =
        some (.bv bits (σ name (.bv bits) % 2 ^ bits))) ∧
    (_sym_build_variable rt name value bits).2.g_function_arguments = rt.g_function_arguments ∧
    (_sym_build_variable rt name value bits).2.g_memory_regions = rt.g_memory_regions ∧
    (_sym_build_variable rt name value bits).2.g_solver = rt.g_solver := by
  have hmod : bits % 2 ^ 8 = bits := Nat.mod_eq_of_lt hb
  refine ⟨rfl, ?_, ?_, rfl, rfl, rfl⟩
  · simp only [_sym_get_return_expression, _sym_build_variable, hmod]
  · intro σ h1
    have h0 : bits ≠ 0 := by omega
    simp only [_sym_get_return_expression, _sym_build_variable, hmod, Z3_mk_const,
      Z3_mk_bv_sort, Z3_eval, if_neg h0]

/-- The variable `x` of 8 bits with the concrete value 5, declared in the
state with two registered regions. -/
theorem C11_build_variable_sets_return_slot_witness :
    8 < 2 ^ 8 ∧
    (_sym_build_variable two_region_runtime "x" 5 8).1 = 5 ∧
    _sym_get_return_expression (_sym_build_variable two_region_runtime "x" 5 8).2 =
      (Z3_mk_const "x" (Z3_mk_bv_sort 8), (_sym_build_variable two_region_runtime "x" 5 8).2) ∧
    Z3_eval (fun _ _ => 7)
        (_sym_get_return_expression (_sym_build_variable two_region_runtime "x" 5 8).2).1 =
      some (.bv 8 (7 % 2 ^ 8)) ∧
    (_sym_build_variable two_region_runtime "x" 5 8).2.g_memory_regions =
      two_region_runtime.g_memory_regions := by
  have h := C11_build_variable_sets_return_slot two_region_runtime "x" 5 8 (by decide)
  exact ⟨by decide, h.1, h.2.1, h.2.2.1 (fun _ _ => 7) (by decide), h.2.2.2.2.1⟩

/-! ## C12 and C20: the argument and return slots -/

theorem uint8_lt_kMaxFunctionArguments (index : Nat) :
    index % 2 ^ 8 < kMaxFunctionArguments := by
  unfold kMaxFunctionArguments
  omega

theorem set_parameter_expression_eq (rt : Runtime) (index : Nat) (expr : Z3_ast) :
    _sym_set_parameter_expression rt index expr =
      .ok { rt with
            g_function_arguments := Function.update rt.g_function_arguments
              ⟨index % 2 ^ 8, uint8_lt_kMaxFunctionArguments index⟩ expr } := by
  unfold _sym_set_parameter_expression
  rw [dif_pos (uint8_lt_kMaxFunctionArguments index)]

theorem get_parameter_expression_eq (rt : Runtime) (index : Nat) :
    _sym_get_parameter_expression rt index =
      .ok (rt.g_function_arguments ⟨index % 2 ^ 8, uint8_lt_kMaxFunctionArguments index⟩, rt) := by
  unfold _sym_get_parameter_expression
  rw [dif_pos (uint8_lt_kMaxFunctionArguments index)]

/-- C12: for every state, indices `i` and `j` (values of `uint8_t`) and
expression `e`: after `_sym_set_parameter_expression(i, e)`,
`_sym_get_parameter_expression(i)` returns `e`, `_sym_get_parameter_expression(j)`
for every `j != i` returns what it returned before, and the return slot is
unchanged; after `_sym_set_return_expression(e)`, `_sym_get_return_expression()`
returns `e` and every argument slot is unchanged; the get calls leave the whole
state as it is. -/
theorem C12_slots_last_writer_wins (rt : Runtime) (i j : Nat) (e : Z3_ast)
    (hi : i < 2 ^ 8) (hj : j < 2 ^ 8) :
    (∃ rt1, _sym_set_parameter_expression rt i e = .ok rt1 ∧
      _sym_get_parameter_expression rt1 i = .ok (e, rt1) ∧
      (j ≠ i → ∃ x, _sym_get_parameter_expression rt j = .ok (x, rt) ∧
        _sym_get_parameter_expression rt1 j = .ok (x, rt1)) ∧
      (_sym_get_return_expression rt1).1 = (_sym_get_return_expression rt).1) ∧
    (_sym_get_return_expression (_sym_set_return_expression rt e)).1 = e ∧
    (_sym_set_return_expression rt e).g_function_arguments = rt.g_function_arguments ∧
    (∃ x, _sym_get_parameter_expression (_sym_set_return_expression rt e) j =
        .ok (x, _sym_set_return_expression rt e) ∧
      _sym_get_parameter_expression rt j = .ok (x, rt)) ∧
    (_sym_get_return_expression rt).2 = rt ∧
    (∀ r, _sym_get_parameter_expression rt j = .ok r → r.2 = rt) := by
  have hmi : i % 2 ^ 8 = i := Nat.mod_eq_of_lt hi
  have hmj : j % 2 ^ 8 = j := Nat.mod_eq_of_lt hj
  refine ⟨⟨_, set_parameter_expression_eq rt i e, ?_, ?_, rfl⟩, rfl, rfl, ?_, rfl, ?_⟩
  · rw [get_parameter_expression_eq]
    simp
  · intro hne
    refine ⟨_, get_parameter_expression_eq rt j, ?_⟩
    rw [get_parameter_expression_eq]
    have hfin : (⟨j % 2 ^ 8, uint8_lt_kMaxFunctionArguments j⟩ : Fin kMaxFunctionArguments) ≠
        ⟨i % 2 ^ 8, uint8_lt_kMaxFunctionArguments i⟩ := by
      intro h
      have := congrArg Fin.val h
      simp only [hmi, hmj] at this
      exact hne this
    have hupd := Function.update_noteq hfin e rt.g_function_arguments
    simp only [hupd]
  · exact ⟨_, get_parameter_expression_eq _ j, get_parameter_expression_eq rt j⟩
  · intro r hr
    rw [get_parameter_expression_eq] at hr
    cases hr
    rfl

/-- Slot 3 is written in the start state; slots 3 and 4 and the return slot
are read back. -/
theorem C12_slots_last_writer_wins_witness :
    3 < 2 ^ 8 ∧ 4 < 2 ^ 8 ∧ 4 ≠ 3 ∧
    ∃ rt1, _sym_set_parameter_expression (zero_initialized Z3_no_simplifier) 3 Z3_mk_true =
        .ok rt1 ∧
      _sym_get_parameter_expression rt1 3 = .ok (Z3_mk_true, rt1) ∧
      _sym_get_parameter_expression rt1 4 = .ok (Z3_ast.null, rt1) ∧
      _sym_get_parameter_expression (zero_initialized Z3_no_simplifier) 4 =
        .ok (Z3_ast.null, zero_initialized Z3_no_simplifier) ∧
      (_sym_get_return_expression rt1).1 = Z3_ast.null := by
  have h := C12_slots_last_writer_wins (zero_initialized Z3_no_simplifier) 3 4 Z3_mk_true
    (by decide) (by decide)
  obtain ⟨⟨rt1, h1, h2, h3, h4⟩, -⟩ := h
  obtain ⟨x, h5, h6⟩ := h3 (by decide)
  have hx : x = Z3_ast.null := by
    rw [get_parameter_expression_eq] at h5
    cases h5
    rfl
  subst hx
  exact ⟨by decide, by decide, by decide, rt1, h1, h2, h6, h5, h4⟩

/-- C20: for every value of the 8-bit index parameter of
`_sym_set_parameter_expression` and `_sym_get_parameter_expression`, the index
is below `kMaxFunctionArguments = 256`, the capacity of the slot array, so
neither call reaches the access outside the array: both succeed. -/
theorem C20_parameter_index_in_range (rt : Runtime) (index : Nat) (expr : Z3_ast) :
    kMaxFunctionArguments = 256 ∧
    (index < 2 ^ 8 → index < kMaxFunctionArguments) ∧
    index % 2 ^ 8 < kMaxFunctionArguments ∧
    (∃ rt1, _sym_set_parameter_expression rt index expr = .ok rt1) ∧
    (∃ r, _sym_get_parameter_expression rt index = .ok r) ∧
    _sym_set_parameter_expression rt index expr ≠ .error .undefined_behavior ∧
    _sym_get_parameter_expression rt index ≠ .error .undefined_behavior := by
  refine ⟨rfl, ?_, uint8_lt_kMaxFunctionArguments index,
    ⟨_, set_parameter_expression_eq rt index expr⟩, ⟨_, get_parameter_expression_eq rt index⟩,
    ?_, ?_⟩
  · intro h
    unfold kMaxFunctionArguments
    omega
  · rw [set_parameter_expression_eq]
    exact fun h => Except.noConfusion h
  · rw [get_parameter_expression_eq]
    exact fun h => Except.noConfusion h

/-! ## C14 -/

/-- The result of a call on a literal: the expression and the state as it was. -/
theorem push_path_constraint_literal_ok (rt : Runtime) (c : Z3_ast) (taken : Int)
    (r : Z3_ast × Runtime)
    (hlit : Z3_simplify rt.g_context c = Z3_mk_true ∨ Z3_simplify rt.g_context c = Z3_mk_false)
    (hret : _sym_push_path_constraint rt c taken = .ok r) :
    r.2 = rt ∧ (r.1 = Z3_mk_true ∨ r.1 = Z3_mk_not Z3_mk_false) := by
  have h := push_path_constraint_literal rt c taken
  rcases hlit with hl | hl
  · by_cases ht : taken = 0
    · rw [h.2.1 hl ht] at hret
      cases hret
    · rw [h.2.2.1 hl ht] at hret
      cases hret
      exact ⟨rfl, Or.inl rfl⟩
  · by_cases ht : taken = 0
    · rw [h.2.2.2 hl ht] at hret
      cases hret
      exact ⟨rfl, Or.inr rfl⟩
    · rw [h.1 hl ht] at hret
      cases hret

/-- On a literal the outcome of the call does not depend on the
satisfiability check of the context. -/
theorem push_path_constraint_literal_check (rt : Runtime) (c : Z3_ast) (taken : Int)
    (r : Z3_ast × Runtime) (check : List Z3_ast → Z3_lbool)
    (hlit : Z3_simplify rt.g_context c = Z3_mk_true ∨ Z3_simplify rt.g_context c = Z3_mk_false)
    (hret : _sym_push_path_constraint rt c taken = .ok r) :
    _sym_push_path_constraint { rt with g_context := ⟨rt.g_context.simplify, check⟩ } c taken =
      .ok (r.1, { rt with g_context := ⟨rt.g_context.simplify, check⟩ }) := by
  have h := push_path_constraint_literal rt c taken
  have h2 := push_path_constraint_literal
    { rt with g_context := ⟨rt.g_context.simplify, check⟩ } c taken
  rcases hlit with hl | hl
  · by_cases ht : taken = 0
    · rw [h.2.1 hl ht] at hret
      cases hret
    · rw [h.2.2.1 hl ht] at hret
      cases hret
      exact h2.2.2.1 hl ht
  · by_cases ht : taken = 0
    · rw [h.2.2.2 hl ht] at hret
      cases hret
      exact h2.2.2.2 hl ht
    · rw [h.1 hl ht] at hret
      cases hret

/-- C14: for every call `_sym_push_path_constraint(c, taken)` in which
`simplify(c)` is the literal `true` or the literal `false` and which returns
normally, the whole state after the call is the state before it: the
assertions and the open scopes of the solver are the same (nothing was pushed,
popped or asserted), nothing was printed, and the outcome is the same with any
other satisfiability check in place of the one of the context (no check is
made). -/
theorem C14_literal_path_leaves_solver_alone (rt : Runtime) (c : Z3_ast) (taken : Int)
    (r : Z3_ast × Runtime)
    (hlit : Z3_simplify rt.g_context c = Z3_mk_true ∨ Z3_simplify rt.g_context c = Z3_mk_false)
    (hret : _sym_push_path_constraint rt c taken = .ok r) :
    r.2 = rt ∧
    r.2.g_solver.assertions = rt.g_solver.assertions ∧
    r.2.g_solver.scopes = rt.g_solver.scopes ∧
    r.2.g_solver.scopes.length = rt.g_solver.scopes.length ∧
    r.2.stdout = rt.stdout ∧
    ∀ check : List Z3_ast → Z3_lbool,
      _sym_push_path_constraint { rt with g_context := ⟨rt.g_context.simplify, check⟩ } c taken =
        .ok (r.1, { rt with g_context := ⟨rt.g_context.simplify, check⟩ }) := by
  have h := (push_path_constraint_literal_ok rt c taken r hlit hret).1
  refine ⟨h, by rw [h], by rw [h], by rw [h], by rw [h], ?_⟩
  intro check
  exact push_path_constraint_literal_check rt c taken r check hlit hret

/-- The literal `true`, taken, in a state whose solver holds one assertion in
one open scope. -/
theorem C14_literal_path_leaves_solver_alone_witness :
    (Z3_simplify
        { zero_initialized Z3_no_simplifier with
          g_solver := ⟨[Z3_mk_const "x" .bool], [0]⟩ }.g_context Z3_mk_true = Z3_mk_true ∨
      Z3_simplify
        { zero_initialized Z3_no_simplifier with
          g_solver := ⟨[Z3_mk_const "x" .bool], [0]⟩ }.g_context Z3_mk_true = Z3_mk_false) ∧
    _sym_push_path_constraint
        { zero_initialized Z3_no_simplifier with g_solver := ⟨[Z3_mk_const "x" .bool], [0]⟩ }
        Z3_mk_true 1 =
      .ok (Z3_mk_true,
        { zero_initialized Z3_no_simplifier with g_solver := ⟨[Z3_mk_const "x" .bool], [0]⟩ }) ∧
    _sym_push_path_constraint
        { zero_initialized Z3_no_simplifier with
          g_solver := ⟨[Z3_mk_const "x" .bool], [0]⟩
          g_context := ⟨Z3_no_simplifier.simplify, fun _ => .Z3_L_FALSE⟩ }
        Z3_mk_true 1 =
      .ok (Z3_mk_true,
        { zero_initialized Z3_no_simplifier with
          g_solver := ⟨[Z3_mk_const "x" .bool], [0]⟩
          g_context := ⟨Z3_no_simplifier.simplify, fun _ => .Z3_L_FALSE⟩ }) :=
  ⟨Or.inl rfl, rfl,
    (C14_literal_path_leaves_solver_alone
      { zero_initialized Z3_no_simplifier with g_solver := ⟨[Z3_mk_const "x" .bool], [0]⟩ }
      Z3_mk_true 1 _ (Or.inl rfl) rfl).2.2.2.2.2 (fun _ => .Z3_L_FALSE)⟩

/-! ## C17 -/

/-- The general path is the probe followed by the commit of the taken side. -/
theorem push_path_constraint_general_probe (rt : Runtime) (k : Z3_ast) (taken : Int) :
    push_path_constraint_general rt k taken =
      if Z3_solver_check (push_path_constraint_probe rt k taken).g_context
          (Z3_solver_assert (push_path_constraint_probe rt k taken).g_solver
            (taken_side rt k taken)) = .Z3_L_TRUE then
        .ok (taken_side rt k taken,
          { push_path_constraint_probe rt k taken with
            g_solver := Z3_solver_assert (push_path_constraint_probe rt k taken).g_solver
              (taken_side rt k taken) })
      else .error .infeasible_path_constraint :=
  rfl

theorem push_path_constraint_probe_solver_eq (rt : Runtime) (k : Z3_ast) (taken : Int) :
    push_path_constraint_probe_solver rt k taken =
      ⟨rt.g_solver.assertions ++ [untaken_side rt k taken],
        rt.g_solver.assertions.length :: rt.g_solver.scopes⟩ :=
  rfl

/-- The state after the probe: the solver and every other global as before,
and two lines printed. -/
theorem push_path_constraint_probe_eq (rt : Runtime) (k : Z3_ast) (taken : Int) :
    push_path_constraint_probe rt k taken =
      { rt with
        stdout := rt.stdout ++
          [.trying_to_solve (rt.g_solver.assertions ++ [untaken_side rt k taken]),
           if Z3_solver_check rt.g_context (push_path_constraint_probe_solver rt k taken) =
               .Z3_L_TRUE
           then .found_diverging_input (rt.g_solver.assertions ++ [untaken_side rt k taken])
           else .cant_find_diverging_input] } := by
  by_cases hp : Z3_solver_check rt.g_context (push_path_constraint_probe_solver rt k taken) =
      .Z3_L_TRUE
  · have hp2 := hp
    simp only [Z3_solver_check, push_path_constraint_probe_solver_eq] at hp2
    simp [push_path_constraint_probe, printf, hp, Z3_solver_check, hp2,
      push_path_constraint_probe_solver_eq, Z3_solver_pop]
  · have hp2 := hp
    simp only [Z3_solver_check, push_path_constraint_probe_solver_eq] at hp2
    simp [push_path_constraint_probe, printf, hp, Z3_solver_check, hp2,
      push_path_constraint_probe_solver_eq, Z3_solver_pop]

/-- C17: for every call `_sym_push_path_constraint(c, taken)` on the general
path (`simplify(c)` neither literal): one probe is made, on the solver with a
freshly pushed scope whose assertions are the previous ones and the untaken
side (`simplify(not simplify(c))` when taken, `simplify(c)` when not taken);
the probe phase prints the solver once and then one report, which is the
diverging input if and only if the check of the probe is `Z3_L_TRUE`; after it
the solver is the solver before the call; and the call then commits the taken
side, failing only when the final check is not `Z3_L_TRUE`, so that a probe
that finds nothing is no error. -/
theorem C17_probe_of_untaken_side (rt : Runtime) (c : Z3_ast) (taken : Int)
    (htrue : Z3_simplify rt.g_context c ≠ Z3_mk_true)
    (hfalse : Z3_simplify rt.g_context c ≠ Z3_mk_false) :
    (push_path_constraint_probe_solver rt (Z3_simplify rt.g_context c) taken).scopes =
      rt.g_solver.assertions.length :: rt.g_solver.scopes ∧
    (push_path_constraint_probe_solver rt (Z3_simplify rt.g_context c) taken).assertions =
      rt.g_solver.assertions ++
        [if taken ≠ 0 then Z3_simplify rt.g_context (Z3_mk_not (Z3_simplify rt.g_context c))
         else Z3_simplify rt.g_context c] ∧
    (push_path_constraint_probe rt (Z3_simplify rt.g_context c) taken).stdout =
      rt.stdout ++
        [.trying_to_solve
            (push_path_constraint_probe_solver rt (Z3_simplify rt.g_context c) taken).assertions,
         if Z3_solver_check rt.g_context
             (push_path_constraint_probe_solver rt (Z3_simplify rt.g_context c) taken) =
               .Z3_L_TRUE
         then .found_diverging_input
           (push_path_constraint_probe_solver rt (Z3_simplify rt.g_context c) taken).assertions
         else .cant_find_diverging_input] ∧
    ((∃ m, Output.found_diverging_input m ∈
        (push_path_constraint_probe rt (Z3_simplify rt.g_context c) taken).stdout.drop
          rt.stdout.length) ↔
      Z3_solver_check rt.g_context
        (push_path_constraint_probe_solver rt (Z3_simplify rt.g_context c) taken) =
          .Z3_L_TRUE) ∧
    (push_path_constraint_probe rt (Z3_simplify rt.g_context c) taken).g_solver = rt.g_solver ∧
    _sym_push_path_constraint rt c taken =
      (if Z3_solver_check rt.g_context
          (Z3_solver_assert rt.g_solver
            (if taken ≠ 0 then Z3_simplify rt.g_context c
             else Z3_simplify rt.g_context (Z3_mk_not (Z3_simplify rt.g_context c)))) =
            .Z3_L_TRUE then
        .ok (if taken ≠ 0 then Z3_simplify rt.g_context c
             else Z3_simplify rt.g_context (Z3_mk_not (Z3_simplify rt.g_context c)),
          { push_path_constraint_probe rt (Z3_simplify rt.g_context c) taken with
            g_solver := Z3_solver_assert rt.g_solver
              (if taken ≠ 0 then Z3_simplify rt.g_context c
               else Z3_simplify rt.g_context (Z3_mk_not (Z3_simplify rt.g_context c))) })
      else .error .infeasible_path_constraint) := by
  have hprobe := push_path_constraint_probe_eq rt (Z3_simplify rt.g_context c) taken
  have hrun : _sym_push_path_constraint rt c taken =
      push_path_constraint_general rt (Z3_simplify rt.g_context c) taken := by
    simp only [_sym_push_path_constraint, if_neg htrue, if_neg hfalse]
  refine ⟨rfl, rfl, ?_, ?_, ?_, ?_⟩
  · rw [hprobe]
    rfl
  · rw [hprobe]
    simp only [List.drop_left]
    by_cases hp : Z3_solver_check rt.g_context
        (push_path_constraint_probe_solver rt (Z3_simplify rt.g_context c) taken) = .Z3_L_TRUE
    · simp [hp]
    · simp [hp]
  · rw [hprobe]
  · rw [hrun, push_path_constraint_general_probe]
    have hs : (push_path_constraint_probe rt (Z3_simplify rt.g_context c) taken).g_solver =
        rt.g_solver := by rw [hprobe]
    have hc : (push_path_constraint_probe rt (Z3_simplify rt.g_context c) taken).g_context =
        rt.g_context := by rw [hprobe]
    rw [hs, hc]
    rfl

/-- The Boolean constant `x`, taken, with the oracle that tries one
assignment: the probe of `not x` finds nothing, which is no error, and `x` is
committed. -/
theorem C17_probe_of_untaken_side_witness :
    Z3_simplify (zero_initialized Z3_one_model_oracle).g_context (Z3_mk_const "x" .bool) ≠
      Z3_mk_true ∧
    Z3_simplify (zero_initialized Z3_one_model_oracle).g_context (Z3_mk_const "x" .bool) ≠
      Z3_mk_false ∧
    Z3_solver_check (zero_initialized Z3_one_model_oracle).g_context
      (push_path_constraint_probe_solver (zero_initialized Z3_one_model_oracle)
        (Z3_mk_const "x" .bool) 1) = .Z3_L_UNDEF ∧
    (push_path_constraint_probe (zero_initialized Z3_one_model_oracle)
        (Z3_mk_const "x" .bool) 1).stdout =
      [.trying_to_solve [Z3_mk_not (Z3_mk_const "x" .bool)], .cant_find_diverging_input] ∧
    _sym_push_path_constraint (zero_initialized Z3_one_model_oracle) (Z3_mk_const "x" .bool) 1 =
      .ok (Z3_mk_const "x" .bool,
        { zero_initialized Z3_one_model_oracle with
          g_solver := ⟨[Z3_mk_const "x" .bool], []⟩
          stdout := [.trying_to_solve [Z3_mk_not (Z3_mk_const "x" .bool)],
            .cant_find_diverging_input] }) := by
  have h1 : Z3_simplify (zero_initialized Z3_one_model_oracle).g_context
      (Z3_mk_const "x" .bool) ≠ Z3_mk_true := by decide
  have h2 : Z3_simplify (zero_initialized Z3_one_model_oracle).g_context
      (Z3_mk_const "x" .bool) ≠ Z3_mk_false := by decide
  have h := C17_probe_of_untaken_side (zero_initialized Z3_one_model_oracle)
    (Z3_mk_const "x" .bool) 1 h1 h2
  exact ⟨h1, h2, rfl, h.2.2.1, h.2.2.2.2.2⟩

/-! ## C13 -/

/-- A taken branch whose condition is true under one assignment and false
under another, from the empty assumption set: the probe of the negation is
reported satisfiable and the condition is committed. -/
theorem push_taken_probe_found (rt : Runtime) (c : Z3_ast) (σa σb : Z3_assignment)
    (hsimp : SemanticsPreserving rt.g_context) (hcomp : CompleteOracle rt.g_context)
    (h0 : rt.g_solver.assertions = [])
    (ha : Z3_eval σa c = some (.bool true)) (hb : Z3_eval σb c = some (.bool false)) :
    _sym_push_path_constraint rt c 1 =
      .ok (Z3_simplify rt.g_context c,
        { rt with
          g_solver := Z3_solver_assert rt.g_solver (Z3_simplify rt.g_context c)
          stdout := rt.stdout ++
            [.trying_to_solve
                [Z3_simplify rt.g_context (Z3_mk_not (Z3_simplify rt.g_context c))],
             .found_diverging_input
                [Z3_simplify rt.g_context (Z3_mk_not (Z3_simplify rt.g_context c))]] }) ∧
    Z3_models σb [Z3_simplify rt.g_context (Z3_mk_not (Z3_simplify rt.g_context c))] ∧
    Z3_models σa [Z3_simplify rt.g_context c] := by
  have hka : Z3_eval σa (Z3_simplify rt.g_context c) = some (.bool true) := by
    rw [Z3_simplify, hsimp σa c, ha]
  have hkb : Z3_eval σb (Z3_simplify rt.g_context c) = some (.bool false) := by
    rw [Z3_simplify, hsimp σb c, hb]
  have htrue : Z3_simplify rt.g_context c ≠ Z3_mk_true := by
    intro h
    rw [h] at hkb
    simp [Z3_mk_true, Z3_eval] at hkb
  have hfalse : Z3_simplify rt.g_context c ≠ Z3_mk_false := by
    intro h
    rw [h] at hka
    simp [Z3_mk_false, Z3_eval] at hka
  have hnb : Z3_eval σb (Z3_simplify rt.g_context (Z3_mk_not (Z3_simplify rt.g_context c))) =
      some (.bool true) := by
    rw [Z3_simplify, hsimp σb, Z3_mk_not]
    simp only [Z3_eval, hkb, Bool.not_false]
  have hmb : Z3_models σb
      [Z3_simplify rt.g_context (Z3_mk_not (Z3_simplify rt.g_context c))] := by
    intro a hmem
    rw [List.mem_singleton] at hmem
    rw [hmem]
    exact hnb
  have hma : Z3_models σa [Z3_simplify rt.g_context c] := by
    intro a hmem
    rw [List.mem_singleton] at hmem
    rw [hmem]
    exact hka
  have hprobe := hcomp _ ⟨σb, hmb⟩
  have hfinal := hcomp _ ⟨σa, hma⟩
  have hone : (1 : Int) ≠ 0 := by decide
  refine ⟨?_, hmb, hma⟩
  simp only [_sym_push_path_constraint, if_neg htrue, if_neg hfalse,
    push_path_constraint_general_eq, h0, List.nil_append, if_pos hone, hprobe, hfinal,
    if_true]

theorem not_decide_lt {α : Type} [LinearOrder α] (a b : α) :
    (!decide (a < b)) = decide (b ≤ a) := by
  by_cases h : a < b
  · simp [h, not_le.2 h]
  · simp [h, not_lt.1 h]

theorem Z3_eval_app2_of (σ : Z3_assignment) (k : Z3_decl_kind) (a b : Z3_ast)
    (va vb : Z3_value) (ha : Z3_eval σ a = some va) (hb : Z3_eval σ b = some vb) :
    Z3_eval σ (.app2 k a b) = Z3_eval_app2 k va vb := by
  simp only [Z3_eval, ha, hb]

theorem Z3_eval_mk_not_of (σ : Z3_assignment) (a : Z3_ast) (b : Bool)
    (ha : Z3_eval σ a = some (.bool b)) : Z3_eval σ (.mk_not a) = some (.bool (!b)) := by
  simp only [Z3_eval, ha]

theorem example_sum_eval (rt0 : Runtime) (σ : Z3_assignment) :
    Z3_eval σ (example_sum rt0) = some (.bv 8 ((σ "x" (.bv 8) % 2 ^ 8 + 3) % 2 ^ 8)) := by
  have h3 : _sym_build_integer 3 8 = Z3_ast.numeral 3 8 := by decide
  have hx : Z3_eval σ (example_x rt0) = some (.bv 8 (σ "x" (.bv 8) % 2 ^ 8)) := by
    simp [example_x, _sym_get_return_expression, _sym_build_variable, Z3_mk_const,
      Z3_mk_bv_sort, Z3_eval]
  have ht : Z3_eval σ (Z3_ast.numeral 3 8) = some (.bv 8 3) := by
    simp [Z3_eval]
  rw [example_sum, h3, _sym_build_add, Z3_mk_bvadd, Z3_eval_app2_of σ _ _ _ _ _ hx ht]
  simp [Z3_eval_app2]

/-- Under every assignment the negated condition of the example has the value
of `(x + 3) >= 10`. -/
theorem example_negation_eval (rt0 : Runtime) (signed : Bool) (σ : Z3_assignment) :
    Z3_eval σ (Z3_mk_not (example_condition rt0 signed)) =
      Z3_eval σ (example_negation rt0 signed) := by
  have h10 : _sym_build_integer 10 8 = Z3_ast.numeral 10 8 := by decide
  have hs := example_sum_eval rt0 σ
  have hten : Z3_eval σ (Z3_ast.numeral 10 8) = some (.bv 8 10) := by
    simp [Z3_eval]
  cases signed with
  | true =>
    have hc := Z3_eval_app2_of σ .Z3_OP_SLT _ _ _ _ hs hten
    have hn := Z3_eval_app2_of σ .Z3_OP_SGEQ _ _ _ _ hs hten
    simp only [Z3_eval_app2, if_true] at hc hn
    simp only [example_condition, example_negation, if_true, _sym_build_signed_less_than,
      _sym_build_signed_greater_equal, Z3_mk_bvslt, Z3_mk_bvsge, Z3_mk_not, h10]
    rw [Z3_eval_mk_not_of σ _ _ hc, hn, not_decide_lt]
  | false =>
    have hc := Z3_eval_app2_of σ .Z3_OP_ULT _ _ _ _ hs hten
    have hn := Z3_eval_app2_of σ .Z3_OP_UGEQ _ _ _ _ hs hten
    simp only [Z3_eval_app2, if_true] at hc hn
    simp only [example_condition, example_negation, Bool.false_eq_true, if_false,
      _sym_build_unsigned_less_than, _sym_build_unsigned_greater_equal, Z3_mk_bvult,
      Z3_mk_bvuge, Z3_mk_not, h10]
    rw [Z3_eval_mk_not_of σ _ _ hc, hn, not_decide_lt]

theorem example_condition_at_5 (rt0 : Runtime) (signed : Bool) :
    Z3_eval (assign_x 5) (example_condition rt0 signed) = some (.bool true) := by
  cases signed <;> rfl

theorem example_condition_at_7 (rt0 : Runtime) (signed : Bool) :
    Z3_eval (assign_x 7) (example_condition rt0 signed) = some (.bool false) := by
  cases signed <;> rfl

/-- C13: from an empty assumption set, with a semantics-preserving simplifier
and a complete satisfiability check (of a correct oracle only completeness is
used): `_sym_build_variable("x", 5, 8)` returns 5 and leaves the 8-bit constant
`x` in the return slot; for the condition `(x + 3) < 10` built from it with
`_sym_build_integer`, `_sym_build_add` and the signed or the unsigned
less-than, `_sym_push_path_constraint` with `taken = 1` returns normally.  The
probe is printed and checked on the single assertion `nc`, which under every
assignment has the value of `(x + 3) >= 10` and of which `x = 7` is a model,
and it is reported as a diverging input; the permanent assumption is not among
the assertions of the probe.  Afterwards the solver holds the one assertion
that was returned, which has the value of the condition, `x = 5` is a model of
it and the check reports it satisfiable. -/
theorem C13_example_branch_on_x_plus_3 (rt0 : Runtime) (signed : Bool)
    (hsimp : SemanticsPreserving rt0.g_context) (hcomp : CompleteOracle rt0.g_context)
    (h0 : rt0.g_solver.assertions = []) :
    (_sym_build_variable rt0 "x" 5 8).1 = 5 ∧
    example_x rt0 = Z3_mk_const "x" (Z3_mk_bv_sort 8) ∧
    ∃ (r : Z3_ast × Runtime) (nc : Z3_ast),
      _sym_push_path_constraint (_sym_build_variable rt0 "x" 5 8).2
        (example_condition rt0 signed) 1 = .ok r ∧
      r.2.stdout = rt0.stdout ++ [.trying_to_solve [nc], .found_diverging_input [nc]] ∧
      (∀ σ, Z3_eval σ nc = Z3_eval σ (example_negation rt0 signed)) ∧
      Z3_models (assign_x 7) [nc] ∧
      r.2.g_solver.assertions = [r.1] ∧
      (∀ σ, Z3_eval σ r.1 = Z3_eval σ (example_condition rt0 signed)) ∧
      Z3_models (assign_x 5) r.2.g_solver.assertions ∧
      Z3_solver_check r.2.g_context r.2.g_solver = .Z3_L_TRUE := by
  have h := push_taken_probe_found (_sym_build_variable rt0 "x" 5 8).2
    (example_condition rt0 signed) (assign_x 5) (assign_x 7) hsimp hcomp h0
    (example_condition_at_5 rt0 signed) (example_condition_at_7 rt0 signed)
  refine ⟨rfl, rfl, _, _, h.1, rfl, ?_, h.2.1, ?_, ?_, ?_, ?_⟩
  · intro σ
    refine (hsimp σ _).trans ?_
    rw [← example_negation_eval rt0 signed σ]
    have hk : Z3_eval σ (Z3_simplify (_sym_build_variable rt0 "x" 5 8).2.g_context
        (example_condition rt0 signed)) = Z3_eval σ (example_condition rt0 signed) :=
      hsimp σ _
    simp only [Z3_mk_not, Z3_eval, hk]
  · show (Z3_solver_assert _ _).assertions = _
    simp only [Z3_solver_assert]
    rw [show (_sym_build_variable rt0 "x" 5 8).2.g_solver = rt0.g_solver from rfl, h0]
    rfl
  · intro σ
    exact hsimp σ _
  · show Z3_models (assign_x 5) (Z3_solver_assert _ _).assertions
    simp only [Z3_solver_assert]
    rw [show (_sym_build_variable rt0 "x" 5 8).2.g_solver = rt0.g_solver from rfl, h0]
    exact h.2.2
  · show Z3_solver_check _ (Z3_solver_assert _ _) = _
    simp only [Z3_solver_check, Z3_solver_assert]
    rw [show (_sym_build_variable rt0 "x" 5 8).2.g_solver = rt0.g_solver from rfl, h0]
    exact hcomp _ ⟨assign_x 5, h.2.2⟩

/-- The example with the signed comparison, from the start state with a
simplifier that changes nothing and a check that reports every set
satisfiable. -/
theorem C13_example_branch_on_x_plus_3_witness :
    SemanticsPreserving (zero_initialized Z3_no_simplifier).g_context ∧
    CompleteOracle (zero_initialized Z3_no_simplifier).g_context ∧
    (zero_initialized Z3_no_simplifier).g_solver.assertions = [] ∧
    ∃ (r : Z3_ast × Runtime) (nc : Z3_ast),
      _sym_push_path_constraint (_sym_build_variable (zero_initialized Z3_no_simplifier) "x" 5 8).2
        (example_condition (zero_initialized Z3_no_simplifier) true) 1 = .ok r ∧
      r.2.stdout = (zero_initialized Z3_no_simplifier).stdout ++
        [.trying_to_solve [nc], .found_diverging_input [nc]] ∧
      (∀ σ, Z3_eval σ nc =
        Z3_eval σ (example_negation (zero_initialized Z3_no_simplifier) true)) ∧
      Z3_models (assign_x 7) [nc] ∧
      r.2.g_solver.assertions = [r.1] ∧
      (∀ σ, Z3_eval σ r.1 =
        Z3_eval σ (example_condition (zero_initialized Z3_no_simplifier) true)) ∧
      Z3_models (assign_x 5) r.2.g_solver.assertions ∧
      Z3_solver_check r.2.g_context r.2.g_solver = .Z3_L_TRUE :=
  ⟨fun _ _ => rfl, fun _ _ => rfl, rfl,
    (C13_example_branch_on_x_plus_3 (zero_initialized Z3_no_simplifier) true
      (fun _ _ => rfl) (fun _ _ => rfl) rfl).2.2⟩

/-! ## C18 -/

/-- The array after `SYM_INITIALIZE_ARRAY(bits)`: the first `n` entries are
what `Z3_mk_int` makes of the values, the other entries are as before. -/
theorem SYM_INITIALIZE_ARRAY_spec (bits : Nat) (expression : Nat → Z3_ast) (value : Nat → Nat)
    (n i : Nat) :
    (i < n → SYM_INITIALIZE_ARRAY bits expression value n i =
      Z3_mk_int (to_int (value i % 2 ^ bits)) (Z3_mk_bv_sort bits)) ∧
    (n ≤ i → SYM_INITIALIZE_ARRAY bits expression value n i = expression i) := by
  induction n with
  | zero => exact ⟨fun h => absurd h (Nat.not_lt_zero _), fun _ => rfl⟩
  | succ n ih =>
    constructor
    · intro h
      simp only [SYM_INITIALIZE_ARRAY]
      by_cases hin : i = n
      · subst hin
        simp
      · rw [Function.update_noteq hin]
        exact ih.1 (by omega)
    · intro h
      simp only [SYM_INITIALIZE_ARRAY]
      have hin : i ≠ n := by omega
      rw [Function.update_noteq hin]
      exact ih.2 (by omega)

/-- For element widths of 8, 16 and 32 bits the first `n` entries are the
constants of the values, and the entries from `n` on are unchanged for every
width. -/
theorem initialize_array_of_le_32 (bits : Nat) (expression : Nat → Z3_ast) (value : Nat → Nat)
    (n i : Nat) (h1 : 1 ≤ bits) (h2 : bits ≤ 32) (hv : value i < 2 ^ bits) (hi : i < n) :
    SYM_INITIALIZE_ARRAY bits expression value n i = Z3_ast.numeral (value i) bits := by
  rw [(SYM_INITIALIZE_ARRAY_spec bits expression value n i).1 hi]
  have h0 : bits ≠ 0 := by omega
  simp only [Z3_mk_bv_sort, Z3_mk_int, if_neg h0, Z3_unsigned_to_int _ bits h2, Nat.mod_mod,
    Nat.mod_eq_of_lt hv]

/-- C18 (the code at a failing input): `_sym_initialize_array_64` on a buffer
whose element 0 is `2 ^ 32` makes `expression[0]` the 64-bit constant `0`, and
on a buffer whose element 0 is `2 ^ 31` the 64-bit constant `2 ^ 64 - 2 ^ 31`,
not the constants of the full 64-bit values.  The element goes through the
`int` parameter of `Z3_mk_int`, as in `_sym_build_integer`. -/
theorem C18_initialize_array_64_narrows_to_int :
    _sym_initialize_array_64 (fun _ => Z3_ast.null) (fun _ => 2 ^ 32) 1 0 =
      Z3_ast.numeral 0 64 ∧
    Z3_eval (fun _ _ => 0)
      (_sym_initialize_array_64 (fun _ => Z3_ast.null) (fun _ => 2 ^ 32) 1 0) =
        some (.bv 64 0) ∧
    (2 ^ 32 < 2 ^ 64 ∧ 2 ^ 32 ≠ 0) ∧
    _sym_initialize_array_64 (fun _ => Z3_ast.null) (fun _ => 2 ^ 31) 1 0 =
      Z3_ast.numeral (2 ^ 64 - 2 ^ 31) 64 ∧
    (2 ^ 31 < 2 ^ 64 ∧ 2 ^ 31 ≠ 2 ^ 64 - 2 ^ 31) ∧
    _sym_initialize_array_64 (fun _ => Z3_ast.null) (fun _ => 2 ^ 32) 1 1 = Z3_ast.null := by
  refine ⟨?_, ?_, by decide, ?_, by decide, ?_⟩
  · simp only [_sym_initialize_array_64, SYM_INITIALIZE_ARRAY, Function.update_same]
    decide
  · simp only [_sym_initialize_array_64, SYM_INITIALIZE_ARRAY, Function.update_same]
    decide
  · simp only [_sym_initialize_array_64, SYM_INITIALIZE_ARRAY, Function.update_same]
    decide
  · rw [_sym_initialize_array_64,
      (SYM_INITIALIZE_ARRAY_spec 64 (fun _ => Z3_ast.null) (fun _ => 2 ^ 32) 1 1).2
        (Nat.le_refl 1)]

/-! ## The regions that a registration keeps -/

/-- In a separated registry the elements before `lower_bound(addr)` are the
elements that end below `addr`. -/
theorem take_lower_bound_eq_filter (rs : List MemoryRegion) (addr : Nat)
    (hs : StrictlySeparated rs) :
    rs.take (lower_bound rs addr) = rs.filter (fun r => decide (r.end_ < addr)) := by
  induction rs with
  | nil => rfl
  | cons x rs ih =>
    by_cases hx : region_lt_addr x addr
    · have hx2 : x.end_ < addr := hx
      rw [lower_bound, if_pos hx, List.take_succ_cons, List.filter_cons, ih hs.tail]
      simp only [hx2, decide_True, if_true]
    · have hx2 : ¬ x.end_ < addr := hx
      rw [lower_bound, if_neg hx, List.take_zero, List.filter_cons]
      simp only [hx2, decide_False, Bool.false_eq_true, if_false]
      symm
      rw [List.filter_eq_nil_iff]
      intro r hr
      have h1 := hs.head_lt r hr
      have h2 := hs.1 r (List.mem_cons_of_mem _ hr)
      rw [decide_eq_true_iff]
      omega

/-- In a separated registry the elements from `upper_bound(key)` on are the
elements that start above `key`. -/
theorem drop_upper_bound_eq_filter (rs : List MemoryRegion) (key : Nat)
    (hs : StrictlySeparated rs) :
    rs.drop (upper_bound rs key) = rs.filter (fun r => decide (key < r.start)) := by
  induction rs with
  | nil => rfl
  | cons x rs ih =>
    by_cases hx : addr_lt_region key x
    · have hx2 : key < x.start := hx
      rw [upper_bound, if_pos hx, List.drop_zero, List.filter_cons]
      simp only [hx2, decide_True, if_true]
      congr 1
      symm
      rw [List.filter_eq_self]
      intro r hr
      have h1 := hs.head_lt r hr
      have h2 := hs.1 x (List.mem_cons_self _ _)
      rw [decide_eq_true_iff]
      omega
    · have hx2 : ¬ key < x.start := hx
      rw [upper_bound, if_neg hx, List.drop_succ_cons, List.filter_cons, ih hs.tail]
      simp only [hx2, decide_False, Bool.false_eq_true, if_false]

/-- Every region of a reachable registry ends below `2 ^ 64`. -/
theorem register_all_end_lt (calls : List RegisterCall) (rt rt1 : Runtime)
    (hs : StrictlySeparated rt.g_memory_regions)
    (hb : ∀ r ∈ rt.g_memory_regions, r.end_ < 2 ^ 64)
    (hw : ∀ c ∈ calls, c.addr + c.length < 2 ^ 64)
    (hrun : register_all rt calls = .ok rt1) :
    ∀ r ∈ rt1.g_memory_regions, r.end_ < 2 ^ 64 := by
  induction calls generalizing rt with
  | nil =>
    cases hrun
    exact hb
  | cons c cs ih =>
    have hc := hw c (List.mem_cons_self _ _)
    have heq := register_memory_eq rt c.addr c.shadow c.length hs hc
    have hs1 := register_memory_separated rt _ c.addr c.shadow c.length hs hc heq
    simp only [register_all, heq] at hrun
    refine ih _ hs1 ?_ (fun x hx => hw x (List.mem_cons_of_mem _ hx)) hrun
    intro r hr
    simp only [List.mem_append, List.mem_cons] at hr
    rcases hr with hr | rfl | hr
    · exact hb r (List.mem_of_mem_take hr)
    · exact hc
    · exact hb r (List.mem_of_mem_drop hr)

theorem Reachable.end_lt {rs : List MemoryRegion} (h : Reachable rs) :
    ∀ r ∈ rs, r.end_ < 2 ^ 64 := by
  obtain ⟨rt0, rt, calls, h0, hw, hrun, rfl⟩ := h
  refine register_all_end_lt calls rt0 rt (h0 ▸ separated_nil) ?_ hw hrun
  rw [h0]
  intro r hr
  cases hr

/-! ## C15 -/

/-- C15: for every reachable registry and every `addr`, `shadow` and `length`
with `addr + length` not wrapping, `_sym_register_memory(addr, shadow,
length)` succeeds; the registry afterwards is the previous regions that end
below `addr`, then the region `{start = addr, end = addr + length, shadow}`,
then the previous regions that start above `addr + length`.  So the new
region is registered, no previous region whose range meets the closed
interval `[addr, addr + length]` is among the regions that were kept, and a
previous region was kept only if its end is below `addr` or its start is above
`addr + length`. -/
theorem C15_register_evicts_closed_interval (rt : Runtime) (addr : Nat)
    (shadow : Nat → Z3_ast) (length : Nat)
    (hr : Reachable rt.g_memory_regions) (hw : addr + length < 2 ^ 64) :
    ∃ rt1, _sym_register_memory rt addr shadow length = .ok rt1 ∧
      rt1.g_memory_regions =
        rt.g_memory_regions.filter (fun r => decide (r.end_ < addr)) ++
          ⟨addr, addr + length, shadow⟩ ::
            rt.g_memory_regions.filter (fun r => decide (addr + length < r.start)) ∧
      (⟨addr, addr + length, shadow⟩ : MemoryRegion) ∈ rt1.g_memory_regions ∧
      (∀ r ∈ rt.g_memory_regions, r.start ≤ addr + length → addr ≤ r.end_ →
        r ∉ rt.g_memory_regions.filter (fun r => decide (r.end_ < addr)) ∧
        r ∉ rt.g_memory_regions.filter (fun r => decide (addr + length < r.start))) ∧
      (∀ r, r ∈ rt.g_memory_regions.filter (fun r => decide (r.end_ < addr)) ∨
          r ∈ rt.g_memory_regions.filter (fun r => decide (addr + length < r.start)) →
        r ∈ rt.g_memory_regions ∧ (r.end_ < addr ∨ addr + length < r.start)) := by
  have hs := hr.separated
  have heq := register_memory_eq rt addr shadow length hs hw
  rw [take_lower_bound_eq_filter _ _ hs, drop_upper_bound_eq_filter _ _ hs] at heq
  refine ⟨_, heq, rfl, ?_, ?_, ?_⟩
  · simp
  · intro r _ h1 h2
    simp only [List.mem_filter, decide_eq_true_iff, not_and]
    exact ⟨fun _ => by omega, fun _ => by omega⟩
  · intro r h
    simp only [List.mem_filter, decide_eq_true_iff] at h
    rcases h with h | h
    · exact ⟨h.1, Or.inl h.2⟩
    · exact ⟨h.1, Or.inr h.2⟩

/-- In the registry with `[16, 32)` and `[48, 64)`, the registration of
`[32, 40)`: the region `[16, 32)` meets the closed interval and goes, the
region `[48, 64)` stays. -/
theorem C15_register_evicts_closed_interval_witness :
    Reachable two_region_runtime.g_memory_regions ∧ 32 + 8 < 2 ^ 64 ∧
    ∃ rt1, _sym_register_memory two_region_runtime 32 (numeral_shadow 32) 8 = .ok rt1 ∧
      rt1.g_memory_regions.map (fun r => (r.start, r.end_)) = [(32, 40), (48, 64)] := by
  obtain ⟨rt1, h1, h2, -⟩ := C15_register_evicts_closed_interval two_region_runtime 32
    (numeral_shadow 32) 8 two_region_runtime_reachable (by decide)
  refine ⟨two_region_runtime_reachable, by decide, rt1, h1, ?_⟩
  rw [h2]
  rfl

/-! ## C16 -/

/-- The expression of the loop depends only on the entries `0, ..., k` of the
array. -/
theorem read_memory_loop_congr (s t : Nat → Z3_ast) (little_endian : Bool) (k : Nat)
    (h : ∀ i, i ≤ k → s i = t i) :
    read_memory_loop s little_endian k = read_memory_loop t little_endian k := by
  induction k with
  | zero => simp only [read_memory_loop, h 0 (Nat.le_refl 0)]
  | succ k ih =>
    simp only [read_memory_loop, h (k + 1) (Nat.le_refl _),
      ih (fun i hi => h i (Nat.le_succ_of_le hi))]

/-- C16: for every reachable registry, every `addr` and every `length >= 1`:
if a registered region `r` has `r.start <= addr < r.end` and
`addr + length <= r.end`, then the ordered lookup selects `r`, which is the
only registered region that holds `addr`; `_sym_read_memory(addr, length, e)`
succeeds; its result is the expression of the loop over `r.shadow` from the
offset `addr - r.start`, and is the same for every array that agrees with
`r.shadow` on the offsets `addr - r.start, ..., addr - r.start + length - 1`;
and the state, the registry included, is unchanged. -/
theorem C16_read_selects_containing_region (rt : Runtime) (addr length : Nat)
    (little_endian : Bool) (r : MemoryRegion)
    (hr : Reachable rt.g_memory_regions) (hl : 1 ≤ length) (hm : r ∈ rt.g_memory_regions)
    (hc : r.start ≤ addr ∧ addr < r.end_) (hle : addr + length ≤ r.end_) :
    find rt.g_memory_regions addr = some r ∧
    (∀ r2 ∈ rt.g_memory_regions, r2.contains addr → r2 = r) ∧
    (∃ expr rt1, _sym_read_memory rt addr length little_endian = .ok (expr, rt1) ∧
      rt1 = rt ∧ rt1.g_memory_regions = rt.g_memory_regions ∧
      expr = read_memory_loop (fun i => r.shadow (addr - r.start + i)) little_endian
        (length - 1) ∧
      ∀ shadow2 : Nat → Z3_ast,
        (∀ i, i < length → shadow2 (addr - r.start + i) = r.shadow (addr - r.start + i)) →
        read_memory_loop (fun i => shadow2 (addr - r.start + i)) little_endian (length - 1) =
          expr) := by
  have hs := hr.separated
  have hend := hr.end_lt r hm
  have hfind := find_of_contains _ hs r hm addr hc
  have hmod : (addr + length) % 2 ^ 64 ≤ r.end_ := by
    rw [Nat.mod_eq_of_lt (by omega)]
    exact hle
  refine ⟨hfind, ?_, _, _, read_memory_eq rt addr length little_endian r hs (by omega) hfind hmod,
    rfl, rfl, rfl, ?_⟩
  · intro r2 hm2 hc2
    exact separated_unique _ hs r2 r hm2 hm addr ⟨hc2.1, Nat.le_of_lt hc2.2⟩
      ⟨hc.1, Nat.le_of_lt hc.2⟩
  · intro shadow2 h
    exact read_memory_loop_congr _ _ little_endian (length - 1) (fun i hi => h i (by omega))

/-- The read of four bytes at address 50 of the region `[48, 64)`. -/
theorem C16_read_selects_containing_region_witness :
    Reachable two_region_runtime.g_memory_regions ∧ 1 ≤ 4 ∧
    (⟨48, 64, numeral_shadow 16⟩ : MemoryRegion) ∈ two_region_runtime.g_memory_regions ∧
    (48 ≤ 50 ∧ 50 < 64) ∧ 50 + 4 ≤ 64 ∧
    find two_region_runtime.g_memory_regions 50 = some ⟨48, 64, numeral_shadow 16⟩ ∧
    ∃ expr rt1, _sym_read_memory two_region_runtime 50 4 false = .ok (expr, rt1) ∧
      rt1 = two_region_runtime ∧
      expr = read_memory_loop (fun i => numeral_shadow 16 (50 - 48 + i)) false (4 - 1) := by
  have hm : (⟨48, 64, numeral_shadow 16⟩ : MemoryRegion) ∈
      two_region_runtime.g_memory_regions :=
    List.mem_cons_of_mem _ (List.mem_cons_self _ _)
  have h := C16_read_selects_containing_region two_region_runtime 50 4 false
    ⟨48, 64, numeral_shadow 16⟩ two_region_runtime_reachable (by decide) hm
    ⟨by decide, by decide⟩ (by decide)
  obtain ⟨h1, -, expr, rt1, h3, h4, -, h6, -⟩ := h
  exact ⟨two_region_runtime_reachable, by decide, hm, ⟨by decide, by decide⟩, by decide, h1,
    expr, rt1, h3, h4, h6⟩

/-! ## C19 -/

/-- After the erasure no region starts where the new region starts, so
`insert` adds an element. -/
theorem insert_between_length (A B : List MemoryRegion) (r : MemoryRegion)
    (hA : ∀ a ∈ A, a.start < r.start) (hB : ∀ b ∈ B, r.start < b.start) :
    (insert (A ++ B) r).length = (A ++ B).length + 1 := by
  rw [insert_between A B r hA hB]
  simp only [List.length_append, List.length_cons]
  omega

/-- C19: every registry reachable from the empty registry by
`_sym_register_memory` calls that do not wrap around is strictly separated: in
the order of `start`, `region[i].start <= region[i].end < region[i+1].start`,
so no two registered regions are adjacent or share a start address.
Consequently, for every key, the regions before `lower_bound(key)` are those
with `r < key` and none from there on is, the regions from `upper_bound(key)`
on are those with `key < r` and none before is, and `lower_bound(key)` is not
after `upper_bound(key)` (the sequence is partitioned for `lower_bound`,
`upper_bound` and `find`); and in `_sym_register_memory` the range handed to
`erase` is valid, no remaining region has the start of the new region, and
`insert` adds the new region. -/
theorem C19_reachable_registry_strictly_separated (rs : List MemoryRegion)
    (hr : Reachable rs) :
    (∀ r ∈ rs, r.start ≤ r.end_) ∧
    (∀ (i : Nat) (h : i + 1 < rs.length),
      (rs.get ⟨i, Nat.lt_of_succ_lt h⟩).start ≤ (rs.get ⟨i, Nat.lt_of_succ_lt h⟩).end_ ∧
      (rs.get ⟨i, Nat.lt_of_succ_lt h⟩).end_ < (rs.get ⟨i + 1, h⟩).start) ∧
    rs.Pairwise (fun a b => a.end_ ≠ b.start ∧ a.start ≠ b.start ∧ b.end_ ≠ a.start) ∧
    (∀ key : Nat,
      (∀ r ∈ rs.take (lower_bound rs key), region_lt_addr r key) ∧
      (∀ r ∈ rs.drop (lower_bound rs key), ¬ region_lt_addr r key) ∧
      (∀ r ∈ rs.take (upper_bound rs key), ¬ addr_lt_region key r) ∧
      (∀ r ∈ rs.drop (upper_bound rs key), addr_lt_region key r) ∧
      lower_bound rs key ≤ upper_bound rs key) ∧
    (∀ (addr length : Nat) (shadow : Nat → Z3_ast), addr + length < 2 ^ 64 →
      ∃ rs1, erase rs (lower_bound rs addr) (upper_bound rs ((addr + length) % 2 ^ 64)) =
          some rs1 ∧
        (∀ r ∈ rs1, r.start ≠ addr) ∧
        (insert rs1 ⟨addr, (addr + length) % 2 ^ 64, shadow⟩).length = rs1.length + 1 ∧
        (⟨addr, (addr + length) % 2 ^ 64, shadow⟩ : MemoryRegion) ∈
          insert rs1 ⟨addr, (addr + length) % 2 ^ 64, shadow⟩) := by
  have hs := hr.separated
  refine ⟨hs.1, ?_, ?_, ?_, ?_⟩
  · intro i h
    have h1 := List.pairwise_iff_get.1 hs.2 ⟨i, Nat.lt_of_succ_lt h⟩ ⟨i + 1, h⟩
      (by simp [Fin.lt_def])
    exact ⟨hs.1 _ (List.get_mem rs i (Nat.lt_of_succ_lt h)), h1⟩
  · have hmem : rs.Pairwise (fun a b => (a.start ≤ a.end_ ∧ b.start ≤ b.end_) ∧
        a.end_ < b.start) := by
      have hp := List.pairwise_iff_get.1 hs.2
      rw [List.pairwise_iff_get]
      intro i j hij
      exact ⟨⟨hs.1 _ (List.get_mem rs i.1 i.2), hs.1 _ (List.get_mem rs j.1 j.2)⟩,
        hp i j hij⟩
    refine hmem.imp ?_
    intro a b h
    refine ⟨?_, ?_, ?_⟩ <;> omega
  · intro key
    refine ⟨take_lower_bound_lt rs key, ?_, ?_, drop_upper_bound_gt rs key hs,
      lower_bound_le_upper_bound rs key key hs (Nat.le_refl _)⟩
    · intro r hrm
      exact Nat.not_lt.2 (drop_lower_bound_ge rs key hs r hrm)
    · intro r hrm
      exact Nat.not_lt.2 (take_upper_bound_le rs key r hrm)
  · intro addr length shadow hw
    have hmod : (addr + length) % 2 ^ 64 = addr + length := Nat.mod_eq_of_lt hw
    have hle := lower_bound_le_upper_bound rs addr (addr + length) hs (Nat.le_add_right _ _)
    rw [hmod]
    have hA : ∀ a ∈ rs.take (lower_bound rs addr),
        a.start < (⟨addr, addr + length, shadow⟩ : MemoryRegion).start := by
      intro a ha
      have h1 := take_lower_bound_lt _ _ a ha
      have h2 := hs.1 a (List.mem_of_mem_take ha)
      show a.start < addr
      omega
    have hB : ∀ b ∈ rs.drop (upper_bound rs (addr + length)),
        (⟨addr, addr + length, shadow⟩ : MemoryRegion).start < b.start := by
      intro b hb
      have h1 := drop_upper_bound_gt _ _ hs b hb
      show addr < b.start
      omega
    refine ⟨_, by rw [erase, if_pos hle], ?_, insert_between_length _ _ _ hA hB, ?_⟩
    · intro r hrm
      rw [List.mem_append] at hrm
      rcases hrm with h | h
      · exact Nat.ne_of_lt (hA r h)
      · exact (Nat.ne_of_lt (hB r h)).symm
    · rw [insert_between _ _ _ hA hB]
      simp

/-- The registry with `[16, 32)` and `[48, 64)`. -/
theorem C19_reachable_registry_strictly_separated_witness :
    Reachable two_region_runtime.g_memory_regions ∧
    (∀ r ∈ two_region_runtime.g_memory_regions, r.start ≤ r.end_) ∧
    two_region_runtime.g_memory_regions.Pairwise
      (fun a b => a.end_ ≠ b.start ∧ a.start ≠ b.start ∧ b.end_ ≠ a.start) ∧
    lower_bound two_region_runtime.g_memory_regions 32 ≤
      upper_bound two_region_runtime.g_memory_regions 32 := by
  have h := C19_reachable_registry_strictly_separated two_region_runtime.g_memory_regions
    two_region_runtime_reachable
  exact ⟨two_region_runtime_reachable, h.1, h.2.2.1, (h.2.2.2.1 32).2.2.2.2⟩

end SymCC
